import Mathlib

/-!
Verification development for the cloudseeder record-loading core.

The JavaScript sources are shallowly embedded as Lean definitions:
  * `lib/filters.js`            → `filtersGet`, `matchPredicate`, `applyFilter`
  * `lib/mapping/ref-solver.js` → `inferTargetObject`, `getByPath`, `renderTemplate`,
                                  `resolveRef`, `resolveReferences`
  * `scripts/runLoad.js`        → `edgeB`, `kahnLoop`, `topoOrder`, `topoSortSteps`
  * `lib/sf.js`                 → `commitRESTInsert`, `commitRESTUpsert`, `commitBulkUpsert`
  * `lib/loader.js` / the insertAndMap listing in `docs/usecases/sales.md`
                                → `insertAndMapT`, `reconcileUpsertBatch`, `reconcileLoop`

JavaScript values are modelled by `Val` (JSON-style data; `undefined` is
modelled as `Option.none` wherever the source distinguishes it from `null`).
Machine arithmetic in the sources is only used on small counters and string
lengths, so plain `Int`/`Nat` model JS numbers; fractional values do not occur
on any path the claims exercise.  External collaborators (the jsforce
connection, the metadata snapshot, the regular-expression engine) are passed
in as explicit parameters, mirroring the spec's collaborator boundaries.
-/

/-- A JavaScript (JSON-like) runtime value.  `undefined` is represented by
`Option Val = none` at use sites, matching the way the sources treat the two
"empty" values differently (`== null` vs `=== undefined`). -/
inductive Val where
  | vnull : Val
  | vbool : Bool → Val
  | vint : Int → Val
  | vstr : String → Val
  | vobj : List (String × Val) → Val

/-- A JS object as an ordered field-name → value association list
(first occurrence wins on read; writes keep the original slot). -/
abbrev Record := List (String × Val)

/-- Property read `rec[k]`: `none` models JS `undefined`. -/
def getField : Record → String → Option Val
  | [], _ => none
  | (k0, v0) :: rest, k => if k0 = k then some v0 else getField rest k

/-- Property write `rec[k] = v`: replaces in place when the key exists
(JS keeps the original insertion position), appends otherwise. -/
def setField : Record → String → Val → Record
  | [], k, v => [(k, v)]
  | (k0, v0) :: rest, k, v =>
      if k0 = k then (k0, v) :: rest else (k0, v0) :: setField rest k v

/-- JS truthiness of a value. -/
def jsTruthy : Val → Bool
  | .vnull => false
  | .vbool b => b
  | .vint n => n != 0
  | .vstr s => s != ""
  | .vobj _ => true

/-- JS `String(v)` coercion. -/
def jsString : Val → String
  | .vnull => "null"
  | .vbool b => if b then "true" else "false"
  | .vint n => toString n
  | .vstr s => s
  | .vobj _ => "[object Object]"

/-- JS strict equality `===` restricted to the values that occur in seed
data and filter specs.  Distinct object literals are never `===` (reference
equality), so `vobj` compares false. -/
def Val.strictEq : Val → Val → Bool
  | .vnull, .vnull => true
  | .vbool a, .vbool b => a == b
  | .vint a, .vint b => a == b
  | .vstr a, .vstr b => a == b
  | _, _ => false

/-- `===` where either side may be `undefined` (JS `undefined === undefined`
is true). -/
def optStrictEq : Option Val → Option Val → Bool
  | none, none => true
  | some a, some b => Val.strictEq a b
  | _, _ => false

/-! ### Character-level string primitives.
Lean core's `String.splitOn`, `trim`, `startsWith` … are defined through
well-founded recursion or iterator arithmetic and do not reduce inside the
kernel, so the JS string operations the sources rely on are modelled
directly over character lists (structurally recursive, hence computable in
proofs by `rfl`/`decide`). -/

/-- JS whitespace for `trim` (the characters occurring in seed data). -/
def isWSChar (c : Char) : Bool :=
  c == ' ' || c == '\t' || c == '\n' || c == '\r'

/-- JS `String.prototype.trim`. -/
def jsTrim (s : String) : String :=
  String.mk (((s.data.dropWhile isWSChar).reverse.dropWhile isWSChar).reverse)

/-- Prefix test on character lists. -/
def listStartsWith : List Char → List Char → Bool
  | _, [] => true
  | [], _ :: _ => false
  | c :: cs, d :: ds => c == d && listStartsWith cs ds

/-- JS `String.prototype.startsWith`. -/
def strStartsWith (s pre : String) : Bool :=
  listStartsWith s.data pre.data

/-- JS `String.prototype.endsWith`. -/
def strEndsWith (s suffix : String) : Bool :=
  listStartsWith s.data.reverse suffix.data.reverse

/-- Substring test on character lists. -/
def listContainsSub : List Char → List Char → Bool
  | [], sub => sub.isEmpty
  | c :: cs, sub => listStartsWith (c :: cs) sub || listContainsSub cs sub

/-- JS `String.prototype.slice(0, -n)` / dropping a suffix. -/
def strDropRight (s : String) (n : Nat) : String :=
  String.mk (s.data.take (s.data.length - n))

/-- JS `String.prototype.split(sep)` for a one-character separator
(the only form the sources use), with accumulator `acc` holding the
current segment reversed. -/
def splitOnCharAux (c : Char) : List Char → List Char → List String
  | [], acc => [String.mk acc.reverse]
  | d :: ds, acc =>
      if d == c then String.mk acc.reverse :: splitOnCharAux c ds []
      else splitOnCharAux c ds (d :: acc)

/-- `s.split(c)`, JS semantics: `"".split(".") = [""]`. -/
def splitOnChar (c : Char) (s : String) : List String :=
  splitOnCharAux c s.data []

/-! ## lib/filters.js -/

/-- `filters.js` / `get`: walk the remaining dotted segments with the JS
conditional access `o ? o[k] : undefined` (note: truthiness, not a null
check — a falsy intermediate yields `undefined`). -/
def filtersGetSteps : Option Val → List String → Option Val
  | cur, [] => cur
  | cur, k :: ks =>
      match cur with
      | some v =>
          if jsTruthy v then
            match v with
            | .vobj fs => filtersGetSteps (getField fs k) ks
            | _ => filtersGetSteps none ks
          else filtersGetSteps none ks
      | none => filtersGetSteps none ks

/-- `filters.js` / `get(rec, pathStr)`: empty path reads as `undefined`;
otherwise split on "." (no segment filtering) and reduce. -/
def filtersGet (rec : Record) (pathStr : String) : Option Val :=
  if pathStr == "" then none
  else
    match splitOnChar '.' pathStr with
    | [] => none
    | k :: ks => filtersGetSteps (getField rec k) ks

/-- `filters.js` / `toNum`: JS `Number()` coercion with the `Number.isFinite`
guard folded in (`none` models `NaN`; fractional string literals are outside
the integer model and also map to `none`). -/
def toNum : Option Val → Option Int
  | some (.vint n) => some n
  | some (.vstr s) => if jsTrim s == "" then some 0 else (jsTrim s).toInt?
  | some (.vbool b) => some (if b then 1 else 0)
  | some .vnull => some 0
  | some (.vobj _) => none
  | none => none

/-- `filters.js` / `str(val, ci)`: `null`/`undefined` stringify to "",
otherwise `String(val)`, lower-cased when case-insensitive. -/
def strCI (v : Option Val) (ci : Bool) : String :=
  match v with
  | none => ""
  | some .vnull => ""
  | some w => if ci then (jsString w).toLower else jsString w

/-- JS `String.prototype.includes`. -/
def jsIncludes (s sub : String) : Bool :=
  listContainsSub s.data sub.data

/-- Payload of `equals`/`neq`/`contains`/`startsWith`/`endsWith`
(`value` may be absent, i.e. `undefined`; `ci` defaults falsy). -/
structure FieldCmp where
  field : String
  value : Option Val
  ci : Bool

/-- Payload of `in`/`nin` (`values` defaults to `[]`). -/
structure FieldIn where
  field : String
  values : List Val
  ci : Bool

/-- Payload of the numeric comparators `gt`/`gte`/`lt`/`lte`. -/
structure FieldNum where
  field : String
  value : Option Val

/-- Payload of `regex`. -/
structure RegexCmp where
  field : String
  pattern : String
  flags : String

/-- Payload of `length` (`op` defaults to "eq"). -/
structure LengthCmp where
  field : String
  op : Option String
  value : Int

/-- `spec.all` / `spec.any` accept a single predicate or an array. -/
inductive OneOrMany (α : Type) where
  | one : α → OneOrMany α
  | many : List α → OneOrMany α

/-- A filter predicate object: one optional slot per key that
`matchPredicate` inspects, plus the list of any other keys present on the
object (which the evaluator never reads).  String payloads carry JS
truthiness through `strTruthy`; object/array payloads are always truthy. -/
inductive SpecObj where
  | mk :
      (all : Option (OneOrMany SpecObj)) →
      (any : Option (OneOrMany SpecObj)) →
      (notP : Option SpecObj) →
      (existsP : Option String) →
      (missing : Option String) →
      (equals : Option FieldCmp) →
      (neq : Option FieldCmp) →
      (inP : Option FieldIn) →
      (ninP : Option FieldIn) →
      (regex : Option RegexCmp) →
      (gt : Option FieldNum) →
      (gte : Option FieldNum) →
      (lt : Option FieldNum) →
      (lte : Option FieldNum) →
      (contains : Option FieldCmp) →
      (startsWith : Option FieldCmp) →
      (endsWith : Option FieldCmp) →
      (length : Option LengthCmp) →
      (unknownKeys : List String) →
      SpecObj

/-- JS truthiness of an optional string payload: a present-but-empty string
is falsy, so its guard is skipped exactly like an absent key. -/
def strTruthy : Option String → Option String
  | some s => if s == "" then none else some s
  | none => none

/-- The `exists`/`missing` non-null check `v !== undefined && v !== null`. -/
def presentVal : Option Val → Bool
  | none => false
  | some .vnull => false
  | some _ => true

/-- `filters.js` / `matchPredicate(rec, spec)`, with the regular-expression
engine (`new RegExp(pattern, flags).test(s)`) injected as `rxTest`.  Guards
are tried in source order; when none of the known keys is present (truthy)
the evaluator returns `true` (the permissive default on line 132). -/
def matchPredicate (rxTest : String → String → String → Bool) :
    Record → SpecObj → Bool
  | rec, .mk allP anyP notP exP misP eqP neqP inP ninP rxP gtP gteP ltP lteP
      ctP swP ewP lenP _unk =>
    match allP with
    | some (.one p) => matchPredicate rxTest rec p
    | some (.many ps) => ps.attach.all (fun pp => matchPredicate rxTest rec pp.1)
    | none =>
      match anyP with
      | some (.one p) => matchPredicate rxTest rec p
      | some (.many ps) => ps.attach.any (fun pp => matchPredicate rxTest rec pp.1)
      | none =>
        match notP with
        | some p => ! matchPredicate rxTest rec p
        | none =>
          match strTruthy exP with
          | some path => presentVal (filtersGet rec path)
          | none =>
            match strTruthy misP with
            | some path => ! presentVal (filtersGet rec path)
            | none =>
              match eqP with
              | some c =>
                  if c.ci then strCI (filtersGet rec c.field) true == strCI c.value true
                  else optStrictEq (filtersGet rec c.field) c.value
              | none =>
                match neqP with
                | some c =>
                    if c.ci then strCI (filtersGet rec c.field) true != strCI c.value true
                    else ! optStrictEq (filtersGet rec c.field) c.value
                | none =>
                  match inP with
                  | some c =>
                      if c.ci then
                        (c.values.map (fun x => strCI (some x) true)).contains
                          (strCI (filtersGet rec c.field) true)
                      else
                        match filtersGet rec c.field with
                        | some vv => c.values.any (fun w => Val.strictEq w vv)
                        | none => false
                  | none =>
                    match ninP with
                    | some c =>
                        if c.ci then
                          ! (c.values.map (fun x => strCI (some x) true)).contains
                              (strCI (filtersGet rec c.field) true)
                        else
                          match filtersGet rec c.field with
                          | some vv => ! c.values.any (fun w => Val.strictEq w vv)
                          | none => true
                    | none =>
                      match rxP with
                      | some c =>
                          match filtersGet rec c.field with
                          | none => false
                          | some .vnull => false
                          | some v => rxTest c.pattern c.flags (jsString v)
                      | none =>
                        match gtP, gteP, ltP, lteP with
                        | some c, _, _, _ =>
                            match toNum (filtersGet rec c.field), toNum c.value with
                            | some a, some b => a > b
                            | _, _ => false
                        | none, some c, _, _ =>
                            match toNum (filtersGet rec c.field), toNum c.value with
                            | some a, some b => a ≥ b
                            | _, _ => false
                        | none, none, some c, _ =>
                            match toNum (filtersGet rec c.field), toNum c.value with
                            | some a, some b => a < b
                            | _, _ => false
                        | none, none, none, some c =>
                            match toNum (filtersGet rec c.field), toNum c.value with
                            | some a, some b => a ≤ b
                            | _, _ => false
                        | none, none, none, none =>
                          match ctP with
                          | some c =>
                              match filtersGet rec c.field with
                              | none => false
                              | some .vnull => false
                              | some v =>
                                  jsIncludes (strCI (some v) c.ci) (strCI c.value c.ci)
                          | none =>
                            match swP with
                            | some c =>
                                match filtersGet rec c.field with
                                | none => false
                                | some .vnull => false
                                | some v =>
                                    strStartsWith (strCI (some v) c.ci) (strCI c.value c.ci)
                            | none =>
                              match ewP with
                              | some c =>
                                  match filtersGet rec c.field with
                                  | none => false
                                  | some .vnull => false
                                  | some v =>
                                      strEndsWith (strCI (some v) c.ci) (strCI c.value c.ci)
                              | none =>
                                match lenP with
                                | some c =>
                                    let v := filtersGet rec c.field
                                    let len : Int :=
                                      match v with
                                      | none => 0
                                      | some .vnull => 0
                                      | some w => (jsString w).length
                                    match c.op.getD "eq" with
                                    | "eq" => len == c.value
                                    | "neq" => len != c.value
                                    | "gt" => len > c.value
                                    | "gte" => len ≥ c.value
                                    | "lt" => len < c.value
                                    | "lte" => len ≤ c.value
                                    | _ => false
                                | none => true
  termination_by _ spec => sizeOf spec
  decreasing_by
    all_goals simp_wf
    all_goals first
      | (have hws := List.sizeOf_lt_of_mem pp.2; omega)
      | omega

/-- The step-level filter argument: `undefined`/`null`/`true` pass all
records through, `false` drops all, an array is an implicit AND, anything
else a single predicate. -/
inductive FilterTop where
  | absent : FilterTop
  | fnull : FilterTop
  | fbool : Bool → FilterTop
  | fone : SpecObj → FilterTop
  | fmany : List SpecObj → FilterTop

/-- `filters.js` / `applyFilter(records, filterSpec)`. -/
def applyFilter (rxTest : String → String → String → Bool)
    (records : List Record) (filterSpec : FilterTop) : List Record :=
  match filterSpec with
  | .absent => records
  | .fnull => records
  | .fbool true => records
  | .fbool false => []
  | .fone s => records.filter (fun rec => matchPredicate rxTest rec s)
  | .fmany ps => records.filter (fun rec => ps.all (fun p => matchPredicate rxTest rec p))

/-! ## lib/mapping/ref-solver.js -/

/-- Collapse a falsy (empty) string to `none`: models how the `||` chains in
`ref-solver.js` treat an empty-string operand. -/
def strFalsyToNone : Option String → Option String
  | some "" => none
  | x => x

/-- `ref-solver.js` / `inferTargetObject(field, currentObject)`:
"ParentId" targets the current object, a nonempty name ending in "Id"
targets the prefix before "Id", anything else is not inferable. -/
def inferTargetObject (field : String) (currentObject : Option String) : Option String :=
  if field == "ParentId" then strFalsyToNone currentObject
  else if field != "" && strEndsWith field "Id" then some (strDropRight field 2)
  else none

/-- Walk the remaining path segments inside a value: `cur == null` reads as
`undefined`; a property read on a primitive yields `undefined`. -/
def valGetPath : Option Val → List String → Option Val
  | cur, [] => cur
  | cur, p :: ps =>
      match cur with
      | none => none
      | some .vnull => none
      | some (.vobj fs) => valGetPath (getField fs p) ps
      | some _ => valGetPath none ps

/-- `ref-solver.js` / `getByPath(obj, path)`.  The source normalizes
`[i]` index syntax into dotted segments before splitting and drops empty
segments; paths are modelled post-normalization.  An empty or non-string
path reads as `undefined`; a path with no nonempty segment (e.g. ".")
reduces to the object itself. -/
def getByPath (r : Record) (path : String) : Option Val :=
  if path == "" then none
  else
    match (splitOnChar '.' path).filter (fun s => s ≠ "") with
    | [] => some (.vobj r)
    | p :: ps => valGetPath (getField r p) ps

/-- One piece of a `${...}` template: literal text or a placeholder
(the parsed form of the source's regex scan). -/
inductive TplPart where
  | lit : String → TplPart
  | hole : String → TplPart

/-- A template string, parsed into literal/placeholder pieces. -/
abbrev Tpl := List TplPart

/-- `ref-solver.js` / `renderTemplate(tpl, record)`: placeholders resolve
their trimmed expression against the record; `null`/`undefined` render as
the empty string.  (A template with no placeholder renders to its literal
text, which also covers the legacy path's no-interpolation branch.) -/
def renderTemplate (tpl : Tpl) (record : Record) : String :=
  (tpl.map (fun part =>
    match part with
    | .lit s => s
    | .hole expr =>
        match getByPath record (jsTrim expr) with
        | none => ""
        | some .vnull => ""
        | some v => jsString v)).foldl (fun a b => a ++ b) ""

/-- `ref-solver.js` / `firstNonEmpty(values)`: first value that is neither
`undefined`, `null`, nor all-whitespace when stringified. -/
def firstNonEmptyV : List (Option Val) → Option Val
  | [] => none
  | none :: rest => firstNonEmptyV rest
  | some .vnull :: rest => firstNonEmptyV rest
  | some w :: rest =>
      if jsTrim (jsString w) == "" then firstNonEmptyV rest else some w

/-- A `refKey`/template slot holds either a string (template text) or an
array of field paths. -/
inductive RefKeyVal where
  | strT : Tpl → RefKeyVal
  | arrT : List String → RefKeyVal

/-- A legacy `from` expression that starts with "idMaps.": either the
regex in `parseLegacyFrom` accepts it (target object plus key template) or
it is rejected and resolution throws.  A `from` value that does not start
with "idMaps." is ignored by the source and is modelled as an absent
`fromLegacy`. -/
inductive FromExpr where
  | parsed : String → Tpl → FromExpr
  | badLegacy : FromExpr

/-- A reference entry, as destructured by `resolveRef`.  An absent/empty
`field` is modelled by the empty string (both are falsy in the source's
`if (!field)` guard). -/
structure RefEntry where
  field : String
  refKey : Option RefKeyVal := none
  template : Option RefKeyVal := none
  keyTemplate : Option RefKeyVal := none
  compositeKeyTemplate : Option RefKeyVal := none
  refObject : Option String := none
  onMissing : Option String := none
  required : Bool := false
  fromLegacy : Option FromExpr := none

/-- `ref-solver.js` / `pickTemplate(entry)`: the `??` alias chain
`refKey ?? template ?? keyTemplate ?? compositeKeyTemplate ?? null`. -/
def pickTemplate (e : RefEntry) : Option RefKeyVal :=
  e.refKey <|> e.template <|> e.keyTemplate <|> e.compositeKeyTemplate

/-- The accumulated identifier maps: entity type → (business key → id). -/
abbrev IdMaps := List (String × Record)

/-- `idMaps?.[targetObject] || {}`. -/
def getBucket (m : IdMaps) (k : String) : Record :=
  (((m.find? (fun p => p.1 == k)).map (fun p => p.2))).getD []

/-- `keyValue == null || String(keyValue).trim() === ""`. -/
def missingKeyB : Option Val → Bool
  | none => true
  | some .vnull => true
  | some w => jsTrim (jsString w) == ""

/-- JS property-name coercion for the bucket lookup `bucket[keyValue]`
(`undefined` coerces to the property name "undefined"). -/
def jsKeyString : Option Val → String
  | none => "undefined"
  | some v => jsString v

/-- JS falsiness of the looked-up id (`if (!resolved)`). -/
def isFalsyOpt : Option Val → Bool
  | none => true
  | some w => ! jsTruthy w

/-- Lines 95-123 of `ref-solver.js`: determine the target object (the
`refObject || inferTargetObject(..) || currentObject` truthiness chain of
line 96, overridden by the legacy path) and compute the lookup key. -/
def refLegacyOrKey (entry : RefEntry) (record : Record)
    (currentObject : Option String) : Except String (Option String × Option Val) :=
  let targetObject0 :=
    (strFalsyToNone entry.refObject <|>
      strFalsyToNone (inferTargetObject entry.field currentObject)) <|>
    strFalsyToNone currentObject
  match entry.fromLegacy with
  | some (.parsed obj keyTpl) =>
      .ok (some obj, some (.vstr (renderTemplate keyTpl record)))
  | some .badLegacy =>
      .error ("[ref] Unsupported legacy from expression for field " ++ entry.field)
  | none =>
      match pickTemplate entry with
      | some (.strT tpl) =>
          .ok (targetObject0, some (.vstr (renderTemplate tpl record)))
      | _ =>
          match entry.refKey with
          | some (.arrT paths) =>
              .ok (targetObject0,
                firstNonEmptyV (paths.map (fun k => getByPath record k)))
          | _ =>
              .error ("[ref] Field " ++ entry.field ++
                " must include refKey (string|array) or refKeyTemplate.")

/-- `ref-solver.js` / `resolveRef(entry, record, idMaps, currentObject)`.
Returns the resolved id value, `some Val.vnull` for an explicit null,
`none` for an "omit" outcome, or an error for a throw.  Note that the
"cannot infer" guard of lines 138-142 is only reached when every operand of
the line-96 target-object chain is falsy. -/
def resolveRef (entry : RefEntry) (record : Record) (idMaps : IdMaps)
    (currentObject : Option String) : Except String (Option Val) :=
  if entry.field == "" then .error "[ref] Entry missing field." else
  let onMissing := entry.onMissing.getD "error"
  match refLegacyOrKey entry record currentObject with
  | .error m => .error m
  | .ok (targetObject, keyValue) =>
    if missingKeyB keyValue &&
        (entry.required || onMissing == "error") then
      .error ("[ref] Missing key for field " ++ entry.field ++ ".")
    else if missingKeyB keyValue && onMissing == "null" then
      .ok (some .vnull)
    else if missingKeyB keyValue && onMissing == "skip" then
      .ok none
    else
      match targetObject with
      | none =>
          .error ("[ref] Cannot infer target object for field " ++
            entry.field ++ ". Provide refObject.")
      | some tgt =>
        let bucket := getBucket idMaps tgt
        let resolved := getField bucket (jsKeyString keyValue)
        if isFalsyOpt resolved && (entry.required || onMissing == "error") then
          .error ("[ref] Not found: idMaps." ++ tgt ++ "[" ++
            jsKeyString keyValue ++ "] for field " ++ entry.field ++ ".")
        else if isFalsyOpt resolved && onMissing == "null" then
          .ok (some .vnull)
        else if isFalsyOpt resolved && onMissing == "skip" then
          .ok none
        else
          .ok resolved

/-- `ref-solver.js` / `resolveReferences(rec, references, idMaps,
currentObject)`: resolve each entry in order, writing the outcome onto the
record whenever it is defined (explicit null included), and return the
record's final state. -/
def resolveReferences (rec : Record) (references : List RefEntry)
    (idMaps : IdMaps) (currentObject : Option String) : Except String Record :=
  references.foldlM
    (fun r e =>
      match resolveRef e r idMaps currentObject with
      | .error m => Except.error m
      | .ok none => Except.ok r
      | .ok (some v) => Except.ok (setField r e.field v))
    rec

/-- A heap of JS record objects; addresses are indices.  Used to state
aliasing facts the pure function cannot express. -/
abbrev Heap := List Record

/-- The caller-observable effect of `resolveReferences`: the source mutates
its argument in place (`rec[entry.field] = val`, line 172) and returns the
same object (line 176), so at the heap level the record at the argument
address is updated to the final state and the argument address itself is
returned. -/
def resolveReferencesH (h : Heap) (addr : Nat) (references : List RefEntry)
    (idMaps : IdMaps) (currentObject : Option String) :
    Except String (Nat × Heap) :=
  match resolveReferences (h.getD addr []) references idMaps currentObject with
  | .error m => .error m
  | .ok r2 => .ok (addr, h.set addr r2)

/-- The field paths an entry's key computation reads from the record
(template placeholders, array-form `refKey` paths, legacy key template
placeholders). -/
def tplPaths (t : Tpl) : List String :=
  t.foldr
    (fun p acc =>
      match p with
      | .lit _ => acc
      | .hole e => jsTrim e :: acc) []

/-- All record paths read while computing an entry's lookup key. -/
def entryKeyPaths (e : RefEntry) : List String :=
  match e.fromLegacy with
  | some (.parsed _ keyTpl) => tplPaths keyTpl
  | some .badLegacy => []
  | none =>
      match pickTemplate e with
      | some (.strT tpl) => tplPaths tpl
      | _ =>
          match e.refKey with
          | some (.arrT paths) => paths
          | _ => []

/-- A path reads only outside `written`: either it is the empty path (which
reads nothing) or its head segment is not a written field.  (A nonempty
path with no nonempty segment reads the whole record and is excluded.) -/
def pathReadsOutside (written : List String) (p : String) : Prop :=
  match (splitOnChar '.' p).filter (fun s => s ≠ "") with
  | [] => p = ""
  | h :: _ => h ∉ written

/-- The field names of a record, in order. -/
def keysOf (r : Record) : List String :=
  r.map (fun p => p.1)

/-- Apply a list of field writes in order. -/
def applyWrites (r : Record) (ws : List (String × Val)) : Record :=
  ws.foldl (fun acc w => setField acc w.1 w.2) r

/-- The last value written to `g` by a write list, if any. -/
def lastWrite : List (String × Val) → String → Option Val
  | [], _ => none
  | (f, v) :: t, g => (lastWrite t g) <|> (if f == g then some v else none)

/-! ## lib/sf.js — strategy committers

The jsforce connection is the external transport collaborator: its per-row
results (`SaveResult[]` for REST, the CSV-style success/failure row lists
for Bulk 2.0) are passed in as data, and the verification query
`conn.sobject(..).find(..)` is passed in as a function `findByExt`. -/

/-- JS `??` (nullish coalescing): `null` and `undefined` both defer. -/
def nullish : Option Val → Option Val
  | some .vnull => none
  | x => x

/-- Truthiness of a possibly-absent value (for `||` chains and
`.filter(Boolean)`). -/
def truthyOrNone : Option Val → Option Val
  | some w => if jsTruthy w then some w else none
  | none => none

/-- A jsforce SaveResult row as consumed by `commitREST`
(`success` may be absent; `errors` holds the `toMessages` extraction of the
row's error objects; the JSON dump in the "unknown failure shape" fallback
is elided). -/
structure SaveRes where
  success : Option Bool := none
  created : Bool := false
  id : Option String := none
  errors : List String := []
deriving DecidableEq

/-- `sf.js` insert-path `created` entries: `{ index, id }` where `index` is
whatever the `.filter(..).map((r, i) => ..)` chain produces. -/
structure InsertEntry where
  index : Nat
  id : Option String
deriving DecidableEq

/-- `sf.js` insert-path failure entries. -/
structure InsertFail where
  index : Nat
  id : Option String
  messages : List String
deriving DecidableEq

/-- The insert-path return of `commitREST` (lines 13-26): filter the raw
results by `success` truthiness resp. `success === false` and map with the
**filtered** position as `index`. -/
structure RESTInsertResult where
  created : List InsertEntry
  failures : List InsertFail
deriving DecidableEq

def commitRESTInsert (results : List (Option SaveRes)) : RESTInsertResult :=
  { created :=
      (results.filter (fun r =>
        match r with
        | some sr => sr.success == some true
        | none => false)).mapIdx
        (fun i r => { index := i, id := r.bind (fun sr => sr.id) })
    failures :=
      (results.filter (fun r =>
        match r with
        | some sr => sr.success == some false
        | none => false)).mapIdx
        (fun i r =>
          { index := i, id := r.bind (fun sr => sr.id),
            messages := (r.map (fun sr => sr.errors)).getD [] }) }

/-- `sf.js` / `getKey(row, extField, fallback, i)` (upsert path, `??`
chain). -/
def getKeyREST (row : Record) (extField : String) (fallback : Option Val)
    (i : Nat) : Val :=
  ((nullish (getField row extField) <|> nullish (getField row "Id")) <|>
    nullish fallback).getD (.vstr ("row#" ++ toString i))

/-- An entry of the upsert-path `created`/`updated` lists. -/
structure UpsertEntry where
  index : Nat
  key : Val
  id : Option String
  externalId : Option Val

/-- An entry of the upsert-path `failures` list. -/
structure FailEntry where
  index : Nat
  key : Val
  id : Option String
  externalId : Option Val
  messages : List String

/-- The upsert-path return of `commitREST` (raw `results` and the log lines
elided). -/
structure RESTUpsertResult where
  created : List UpsertEntry
  updated : List UpsertEntry
  failures : List FailEntry
  processedRecords : List Record

/-- One iteration of the upsert reconcile loop (lines 46-78): pair input
row `i` with `results[i]` — positional. -/
def upsertRowStep (batch : List Record) (results : List (Option SaveRes))
    (extField : String)
    (acc : List UpsertEntry × List UpsertEntry × List FailEntry) (i : Nat) :
    List UpsertEntry × List UpsertEntry × List FailEntry :=
  let inRec := batch.getD i []
  match results.getD i none with
  | none =>
      (acc.1, acc.2.1, acc.2.2 ++
        [{ index := i, key := getKeyREST inRec extField none i, id := none,
           externalId := none,
           messages := ["No result returned for this row"] }])
  | some r =>
      if r.success == some true then
        let entry : UpsertEntry :=
          { index := i, key := getKeyREST inRec extField (r.id.map .vstr) i,
            id := r.id, externalId := getField inRec extField }
        if r.created then (acc.1 ++ [entry], acc.2.1, acc.2.2)
        else (acc.1, acc.2.1 ++ [entry], acc.2.2)
      else
        (acc.1, acc.2.1, acc.2.2 ++
          [{ index := i, key := getKeyREST inRec extField (r.id.map .vstr) i,
             id := r.id, externalId := getField inRec extField,
             messages := if r.errors.isEmpty then ["Unknown failure shape"]
               else r.errors }])

/-- `sf.js` / `commitREST`, upsert path (lines 28-119): guard the external
id on every row, reconcile `results[i]` to `batch[i]` by position, then run
the verification query over the truthy external ids of created+updated. -/
def commitRESTUpsert (findByExt : List Val → List Record)
    (batch : List Record) (results : List (Option SaveRes))
    (externalIdField : Option String) : Except String RESTUpsertResult :=
  match externalIdField with
  | none => .error "Missing strategy.externalIdField for upsert"
  | some extField =>
    match (List.range batch.length).find?
        (fun i => ! (truthyOrNone (getField (batch.getD i []) extField)).isSome) with
    | some i =>
        .error ("Missing " ++ extField ++ " just before upsert for row#" ++
          toString i)
    | none =>
      let split := (List.range batch.length).foldl
        (upsertRowStep batch results extField) ([], [], [])
      let verifyExternalIds :=
        ((split.1 ++ split.2.1).map (fun e => e.externalId)).filterMap truthyOrNone
      let processedRecords :=
        if verifyExternalIds.length > 0 then findByExt verifyExternalIds else []
      .ok { created := split.1, updated := split.2.1, failures := split.2.2,
            processedRecords := processedRecords }

/-- ASCII lower-casing (`String.prototype.toLowerCase` restricted to the
ASCII letters that occur in the CSV flags the bulk path inspects). -/
def asciiLowerChar (c : Char) : Char :=
  if 65 ≤ c.toNat ∧ c.toNat ≤ 90 then Char.ofNat (c.toNat + 32) else c

def asciiLower (s : String) : String :=
  String.mk (s.data.map asciiLowerChar)

/-- A JS `Map` keyed by raw values (SameValueZero ≈ `strictEq`):
`set` replaces in place or appends, `get` returns the latest binding. -/
def mapSet {α : Type} (m : List (Val × α)) (k : Val) (v : α) : List (Val × α) :=
  match m with
  | [] => [(k, v)]
  | (k0, v0) :: rest =>
      if Val.strictEq k0 k then (k0, v) :: rest else (k0, v0) :: mapSet rest k v

def mapGet {α : Type} (m : List (Val × α)) (k : Val) : Option α :=
  (m.find? (fun p => Val.strictEq p.1 k)).map (fun p => p.2)

/-- `commitBulk` / `keyFromSuccess`: prefer the external id, then `sf__Id`,
then `Id` (first value whose stringification is non-blank). -/
def keyFromSuccess (ext : String) (r : Record) : Option Val :=
  firstNonEmptyV [getField r ext, getField r "sf__Id", getField r "Id"]

/-- `commitBulk` / `keyFromFailure`. -/
def keyFromFailure (ext : String) (r : Record) : Option Val :=
  firstNonEmptyV [getField r ext, getField r "Id"]

/-- One `successesByKey.set(..)` step: rows whose key is falsy go under a
fresh `Symbol`, which no string lookup can ever hit — modelled by skipping
them. -/
def successStep (ext : String) (m : List (Val × Record)) (r : Record) :
    List (Val × Record) :=
  match truthyOrNone (keyFromSuccess ext r) with
  | some k => mapSet m k r
  | none => m

/-- `successesByKey`. -/
def buildSuccessMap (ext : String) (l : List Record) : List (Val × Record) :=
  l.foldl (successStep ext) []

/-- `r.sf__Error ? String(r.sf__Error) : 'Unknown error'`. -/
def failureMsg (r : Record) : String :=
  match getField r "sf__Error" with
  | some w => if jsTruthy w then jsString w else "Unknown error"
  | none => "Unknown error"

/-- One `failuresByKey` accumulation step (`{ message }` entries modelled
as the message strings). -/
def failureStep (ext : String) (m : List (Val × List String)) (r : Record) :
    List (Val × List String) :=
  match truthyOrNone (keyFromFailure ext r) with
  | some k => mapSet m k ((mapGet m k).getD [] ++ [failureMsg r])
  | none => m

/-- `failuresByKey`. -/
def buildFailureMap (ext : String) (l : List Record) : List (Val × List String) :=
  l.foldl (failureStep ext) []

/-- `commitBulk` / `getKey` (truthy `||` chain, not `??`). -/
def getKeyBulk (row : Record) (ext : String) (fallback : Option Val)
    (i : Nat) : Val :=
  ((truthyOrNone (getField row ext) <|> truthyOrNone (getField row "Id")) <|>
    truthyOrNone fallback).getD (.vstr ("row#" ++ toString i))

/-- A normalized per-input row outcome (`results[i]` in `commitBulk`). -/
structure NormRes where
  success : Bool
  created : Bool
  id : Option Val
  errors : List String

/-- `String(sr.sf__Created ?? '').toLowerCase() === 'true'`. -/
def sfCreatedFlag (sr : Record) : Bool :=
  asciiLower (jsString ((nullish (getField sr "sf__Created")).getD (.vstr ""))) == "true"

/-- The per-input normalized outcome of the bulk upsert path (lines
228-264): look the row's key up in the success map, then the failure map;
the positional fallback is insert-only and unreachable for upsert. -/
def bulkRowResult (sMap : List (Val × Record)) (fMap : List (Val × List String))
    (ext : String) (batch : List Record) (i : Nat) : NormRes :=
  let row := batch.getD i []
  let key := getKeyBulk row ext none i
  match mapGet sMap key with
  | some sr =>
      { success := true, created := sfCreatedFlag sr,
        id :=
          match truthyOrNone (getField sr "sf__Id") with
          | some v => some v
          | none => getField sr "Id",
        errors := [] }
  | none =>
      match mapGet fMap key with
      | some msgs => { success := false, created := false, id := none, errors := msgs }
      | none =>
          { success := false, created := false, id := none,
            errors := ["Row not present in success or failure results"] }

/-- Entries of the bulk created/updated lists. -/
structure BulkEntry where
  index : Nat
  key : Val
  id : Option Val
  externalId : Option Val

/-- Entries of the bulk failures list. -/
structure BulkFail where
  index : Nat
  key : Val
  id : Option Val
  externalId : Option Val
  messages : List String

/-- The (upsert-path) return of `commitBulk` (raw jsforce row lists and
`jobInfo` elided; log lines elided). -/
structure BulkResult where
  results : List NormRes
  created : List BulkEntry
  updated : List BulkEntry
  failures : List BulkFail
  processedRecords : List Record

/-- One iteration of the bulk split loop (lines 271-294), op = upsert. -/
def bulkSplitStep (batch : List Record) (results : List NormRes) (ext : String)
    (acc : List BulkEntry × List BulkEntry × List BulkFail) (i : Nat) :
    List BulkEntry × List BulkEntry × List BulkFail :=
  let inRec := batch.getD i []
  let r := results.getD i { success := false, created := false, id := none, errors := [] }
  if ! r.success then
    (acc.1, acc.2.1, acc.2.2 ++
      [{ index := i, key := getKeyBulk inRec ext r.id i, id := r.id,
         externalId := getField inRec ext, messages := r.errors }])
  else
    let entry : BulkEntry :=
      { index := i, key := getKeyBulk inRec ext r.id i, id := r.id,
        externalId := getField inRec ext }
    if r.created then (acc.1 ++ [entry], acc.2.1, acc.2.2)
    else (acc.1, acc.2.1 ++ [entry], acc.2.2)

/-- Lines 228-349 of `commitBulk` after the key maps are built: normalize
per-input results, split them into created/updated/failures, and run the
upsert verification query over the truthy external ids. -/
def bulkAssemble (findByExt : List Val → List Record) (batch : List Record)
    (ext : String) (sMap : List (Val × Record))
    (fMap : List (Val × List String)) : BulkResult :=
  let results := (List.range batch.length).map (bulkRowResult sMap fMap ext batch)
  let split := (List.range batch.length).foldl
    (bulkSplitStep batch results ext) ([], [], [])
  let exts :=
    ((split.1 ++ split.2.1).map (fun e => e.externalId)).filterMap truthyOrNone
  let processedRecords := if exts.length > 0 then findByExt exts else []
  { results := results, created := split.1, updated := split.2.1,
    failures := split.2.2, processedRecords := processedRecords }

/-- `sf.js` / `commitBulk`, upsert specialization (the only operation the
claims concern; the `op === 'insert'` positional fallback and the
insert-path verification query are dead on this path).  The Bulk 2.0 job
call is the collaborator: its `successfulResults`/`failedResults` CSV rows
are inputs. -/
def commitBulkUpsert (findByExt : List Val → List Record)
    (batch : List Record) (externalIdField : Option String)
    (successfulResults failedResults : List Record) :
    Except String BulkResult :=
  match externalIdField with
  | none => .error "Missing strategy.externalIdField for bulk upsert"
  | some ext =>
    match (List.range batch.length).find? (fun i =>
        jsTrim (jsString ((nullish (getField (batch.getD i []) ext)).getD (.vstr ""))) == "") with
    | some i =>
        .error ("Missing " ++ ext ++ " just before bulk upsert for row#" ++
          toString i)
    | none =>
      .ok (bulkAssemble findByExt batch ext
        (buildSuccessMap ext successfulResults)
        (buildFailureMap ext failedResults))

/-- The business-key → platform-id association a commit result reconciles
(created and updated rows). -/
def keyIdPairs (res : RESTUpsertResult) : List (Val × Option String) :=
  (res.created ++ res.updated).map (fun e => (e.key, e.id))

/-- Claim C2 as stated, for the REST upsert committer: permuting the
collaborator's per-row results leaves every business key mapped to its own
platform id (i.e. the reconciled pairs are the same up to order). -/
def C2Prop : Prop :=
  ∀ (findByExt : List Val → List Record) (batch : List Record)
    (results results2 : List (Option SaveRes)) (ext : Option String)
    (r1 r2 : RESTUpsertResult),
    results2.Perm results →
    commitRESTUpsert findByExt batch results ext = .ok r1 →
    commitRESTUpsert findByExt batch results2 ext = .ok r2 →
    (keyIdPairs r1).Perm (keyIdPairs r2)

/-- No two rows of a bulk result list carry the same (truthy) key. -/
def distinctKeys {α : Type} (keyOf : α → Option Val) (l : List α) : Prop :=
  l.Pairwise (fun r1 r2 => ∀ k1 k2, keyOf r1 = some k1 → keyOf r2 = some k2 →
    Val.strictEq k1 k2 = false)

/-! ## lib/loader.js / the `insertAndMap` listing in docs/usecases/sales.md

The claims C1 and C6 cite the extended `insertAndMap` of the sales use-case
listing (metadata pruning + batch validation + the failures-gated upsert
reconcile loop).  The per-record phases built from the mapping config
(`resolveConstantsDeep`, `applyTransforms`, `shapeRecord`,
`resolveReferences` as composed on lines 470-491) and the metadata/schema
collaborator calls (`ensureObjectMetadataAvailable`, `pruneRecordFields`,
`validateBatch` — spec §6 external interfaces; their sources are not part
of the core) enter as injected parameters `transform`, `ensureMeta`,
`prune`, `validateB`; the commit dispatcher enters as `commitFn`. -/

/-- `loader.js` / `get(obj, path)` — the same truthiness-guarded dotted
reduce as `filters.js`, but without the empty-path guard. -/
def loaderGet (rec : Record) (path : String) : Option Val :=
  match splitOnChar '.' path with
  | [] => some (.vobj rec)
  | k :: ks => filtersGetSteps (getField rec k) ks

/-- Separator join (`Array.prototype.join`). -/
def joinStr (sep : String) : List String → String
  | [] => ""
  | x :: xs => xs.foldl (fun a b => a ++ sep ++ b) x

mutual

/-- `JSON.stringify` for the values that appear in unique keys (escaping of
control characters inside string literals elided). -/
def jsonStringify : Val → String
  | .vnull => "null"
  | .vbool b => if b then "true" else "false"
  | .vint n => toString n
  | .vstr s => "\"" ++ s ++ "\""
  | .vobj fs => "\x7b" ++ jsonStringifyFields fs ++ "\x7d"

def jsonStringifyFields : List (String × Val) → String
  | [] => ""
  | (k, v) :: rest =>
      let item := "\"" ++ k ++ "\":" ++ jsonStringify v
      match rest with
      | [] => item
      | _ :: _ => item ++ "," ++ jsonStringifyFields rest

end

/-- `loader.js` / `computeUniqKey(rec, fields)`; a field resolving to
`undefined` joins as the empty string. -/
def computeUniqKey (rec : Record) (fields : List String) : String :=
  joinStr "|" (fields.map (fun f =>
    match loaderGet rec f with
    | none => ""
    | some v => jsonStringify v))

/-- `loader.js` / `chunk(arr, n)`.  The source is only reached with a
positive batch size (`cfg?.strategy?.batchSize || 200`); a zero chunk size
would not terminate in the source and returns `[]` here. -/
def chunk {α : Type} (arr : List α) (n : Nat) : List (List α) :=
  if harr : arr.isEmpty then []
  else if hn : n = 0 then []
  else arr.take n :: chunk (arr.drop n) n
  termination_by arr.length
  decreasing_by
    simp_wf
    cases arr with
    | nil => simp [List.isEmpty] at harr
    | cons a t => simp; omega

/-- Modelled from the spec: `assertRequiredFields(rec, req, label)` lives
in `utils.min.js`, which is not among the sources; spec §4.3 defines it as
"every listed field must be present and non-null on every record, else the
entire step fails". -/
def assertRequiredFields (rec : Record) (req : List String) (label : String) :
    Except String Unit :=
  match req.find? (fun f =>
      match loaderGet rec f with
      | none => true
      | some .vnull => true
      | some _ => false) with
  | some f => .error ("Missing required field " ++ f ++ " for " ++ label)
  | none => .ok ()

/-- The uniqueness guard of lines 521-532: scan with a seen-set, raising on
the first repeated composite key. -/
def findDupAux (uniqBy : List String) (seen : List String) :
    List Record → Option String
  | [] => none
  | r :: rest =>
      let uk := computeUniqKey r uniqBy
      if uk ∈ seen then some uk else findDupAux uniqBy (uk :: seen) rest

def uniqViolation (uniqBy : List String) (work : List Record) : Option String :=
  if uniqBy.length > 0 then findDupAux uniqBy [] work else none

/-- What the reconcile loop of `insertAndMap` reads off a commit result:
the per-record `failures` and the verification-query `processedRecords`. -/
structure CommitOut where
  failures : List FailEntry
  processedRecords : List Record

/-- The slice of the resolved mapping config that `insertAndMap` reads. -/
structure LoaderCfg where
  matchKey : Option String := none
  requiredFields : List String := []
  uniqueBy : List String := []
  operation : String := "insert"
  externalIdField : Option String := none
  batchSize : Option Nat := none

/-- First truthy value of a JS `||` chain (`none` when all operands are
falsy — such a chain is only consumed under a truthiness test). -/
def jsOrChain : List (Option Val) → Option Val
  | [] => none
  | v :: rest =>
      match truthyOrNone v with
      | some w => some w
      | none => jsOrChain rest

/-- `(rec[0] && rec[0].id)`. -/
def rec0id (rec : Record) : Option Val :=
  match getField rec "0" with
  | some v => if jsTruthy v then (match v with | .vobj o => getField o "id" | _ => none) else none
  | none => none

/-- `rec.Id || rec.id || rec.upsertedId || (rec[0] && rec[0].id)`. -/
def sidOfProcessed (rec : Record) : Option Val :=
  jsOrChain [getField rec "Id", getField rec "id", getField rec "upsertedId", rec0id rec]

/-- The upsert branch of the reconcile loop (sales.md lines 551-565): when
any per-record failure was reported, `processedRecords` stays empty and the
whole batch adds nothing; otherwise each verified row with truthy id and
truthy external-id key adds `idMap[key] = sid`. -/
def reconcileUpsertBatch (extField : Option String) (idMap : Record)
    (out : CommitOut) : Record :=
  let processedRecords := if out.failures.length > 0 then [] else out.processedRecords
  processedRecords.foldl
    (fun m rec =>
      let sid := sidOfProcessed rec
      let key := getField rec (extField.getD "undefined")
      match truthyOrNone sid, truthyOrNone key with
      | some s, some k => setField m (jsString k) s
      | _, _ => m) idMap

/-- The non-upsert branch of the reconcile loop (sales.md lines 567-578):
pair `processedRecords[i]` with `batch[i]` positionally and key the map by
the record's match key. -/
def reconcileOtherBatch (matchKey : String) (batch : List Record)
    (idMap : Record) (out : CommitOut) : Record :=
  let processedRecords := if out.failures.length > 0 then [] else out.processedRecords
  (List.range processedRecords.length).foldl
    (fun m i =>
      let res := processedRecords.getD i []
      let key := loaderGet (batch.getD i []) matchKey
      if (match getField res "success" with
            | some (.vbool true) => true
            | _ => false) ||
          (truthyOrNone (getField res "id")).isSome ||
          (truthyOrNone (getField res "upsertedId")).isSome then
        match truthyOrNone (jsOrChain
            [getField res "id", getField res "upsertedId", rec0id res]) with
        | some s => setField m (jsKeyString key) s
        | none => m
      else m) idMap

/-- The batch commit loop (lines 539-580): submit batches strictly in
sequence, reconciling each result before the next submission.  Returns the
trace of batches actually submitted to the commit collaborator together
with the outcome; a batch whose call throws appears in the trace (the call
was made) and aborts the loop. -/
def commitLoop (commitFn : List Record → Except String CommitOut)
    (reconcile : Record → List Record → CommitOut → Record) :
    List (List Record) → List (List Record) → Record →
    List (List Record) × Except String Record
  | [], trace, idMap => (trace, .ok idMap)
  | b :: rest, trace, idMap =>
      match commitFn b with
      | .error m => (trace ++ [b], .error m)
      | .ok out =>
          commitLoop commitFn reconcile rest (trace ++ [b]) (reconcile idMap b out)

/-- `insertAndMap` from the sales.md listing, with the collaborator calls
injected.  Returns the trace of batches submitted to the commit
collaborator together with the resulting id map or the raised error. -/
def insertAndMapT (ensureMeta : Except String Unit)
    (transform : Record → Except String Record)
    (prune : List Record → List Record)
    (validateB : List Record → Except String Unit)
    (commitFn : List Record → Except String CommitOut)
    (objectName : String) (records : List Record) (cfg : LoaderCfg) :
    List (List Record) × Except String Record :=
  match cfg.matchKey with
  | none => ([], .error ("Mapping for " ++ objectName ++ " missing identify.matchKey"))
  | some matchKey =>
    match ensureMeta with
    | .error m => ([], .error m)
    | .ok _ =>
      match records.mapM transform with
      | .error m => ([], .error m)
      | .ok transformed =>
        let pruned := prune transformed
        match validateB pruned with
        | .error m => ([], .error m)
        | .ok _ =>
          match pruned.findSome? (fun rec =>
              match assertRequiredFields rec cfg.requiredFields
                  (objectName ++ ":" ++
                    (match nullish (loaderGet rec matchKey) with
                     | some v => jsString v
                     | none => "unknown")) with
              | .error m => some m
              | .ok _ => none) with
          | some m => ([], .error m)
          | none =>
            match uniqViolation cfg.uniqueBy pruned with
            | some uk =>
                ([], .error ("Uniqueness violated for " ++ objectName ++
                  ": fields [" ++ joinStr ", " cfg.uniqueBy ++ "], key=" ++ uk))
            | none =>
              let batchSize := match cfg.batchSize with
                | some n => if n = 0 then 200 else n
                | none => 200
              let batches := chunk pruned batchSize
              commitLoop commitFn
                (if cfg.operation == "upsert" then
                  fun m _b out => reconcileUpsertBatch cfg.externalIdField m out
                 else
                  fun m b out => reconcileOtherBatch matchKey b m out)
                batches [] []

/-- A batch's contribution condition for the amended C1: the commit call
succeeded with **zero** per-record failures, and the verification query
returned a row with a truthy platform id whose external-id column is the
truthy key `k`. -/
def batchContributes (commitFn : List Record → Except String CommitOut)
    (extField : Option String) (k : String) (b : List Record) : Prop :=
  ∃ out, commitFn b = .ok out ∧ out.failures = [] ∧
    ∃ rec ∈ out.processedRecords,
      (truthyOrNone (sidOfProcessed rec)).isSome ∧
      ∃ kv, truthyOrNone (getField rec (extField.getD "undefined")) = some kv ∧
        jsString kv = k

/-- Claim C1 as stated, for a committed batch under the upsert strategy:
whenever the collaborator reports row `i` as successful, the reconciled
identifier map has an entry for that row's business key — per-record
failures of other rows must not suppress it. -/
def C1Prop : Prop :=
  ∀ (findByExt : List Val → List Record) (batch : List Record)
    (results : List (Option SaveRes)) (extField : String)
    (out : RESTUpsertResult),
    commitRESTUpsert findByExt batch results (some extField) = .ok out →
    ∀ i sr, results.getD i none = some sr → sr.success = some true →
      i < batch.length →
      getField
        (reconcileUpsertBatch (some extField) []
          { failures := out.failures, processedRecords := out.processedRecords })
        (jsKeyString (getField (batch.getD i []) extField)) ≠ none

/-! ## scripts/runLoad.js — topoSortSteps (Kahn's algorithm)

Only `object` and `dependsOn` of a pipeline step participate in the
ordering; the remaining step fields ride along unchanged and are omitted
from the model. -/

structure Step where
  object : String
  dependsOn : List String
deriving DecidableEq

def defaultStep : Step :=
  { object := "", dependsOn := [] }

/-- The dependency edge `j → i` (producer before consumer): built on lines
63-74, `adj[j].push(i)` when `i ≠ j` and `steps[i].dependsOn` names
`steps[j].object` (the `!deps.length` fast path is subsumed: an empty
`dependsOn` contains nothing). -/
def edgeB (steps : List Step) (j i : Nat) : Bool :=
  j ≠ i && ((steps.getD i defaultStep).dependsOn.contains
    ((steps.getD j defaultStep).object))

/-- The in-degree array as initialized by the nested loops. -/
def initIndeg (steps : List Step) (i : Nat) : Int :=
  (((List.range steps.length).filter (fun j => edgeB steps j i)).length : Int)

/-- `adj[u]`: consumers of step `u`, pushed in ascending order. -/
def adjOf (steps : List Step) (u : Nat) : List Nat :=
  (List.range steps.length).filter (fun i => edgeB steps u i)

/-- The inner `for (const v of adj[u])` loop: decrement `indeg[v]` and
enqueue `v` when it reaches zero. -/
def processNeighbors (adj : List Nat) (indeg : Nat → Int) (q : List Nat) :
    (Nat → Int) × List Nat :=
  adj.foldl
    (fun p v =>
      let ind2 := Function.update p.1 v (p.1 v - 1)
      (ind2, if ind2 v = 0 then p.2 ++ [v] else p.2))
    (indeg, q)

/-- The `while (q.length)` loop: re-sort the queue ascending and shift the
head (i.e. pop the smallest index), then process its adjacency list.  Each
node enters the queue at most once (its in-degree reaches zero at most
once), so the loop runs at most `steps.length` iterations and fuel
`steps.length` is exact. -/
def kahnLoop (adj : Nat → List Nat) :
    (Nat → Int) → List Nat → List Nat → Nat → List Nat
  | _, _, order, 0 => order
  | indeg, q, order, fuel + 1 =>
      match List.insertionSort (fun a b => a ≤ b) q with
      | [] => order
      | u :: rest =>
          let p := processNeighbors (adj u) indeg rest
          kahnLoop adj p.1 p.2 (order ++ [u]) fuel

/-- The index order produced by Kahn's algorithm (lines 76-90). -/
def topoOrder (steps : List Step) : List Nat :=
  let n := steps.length
  let indeg := initIndeg steps
  let q0 := (List.range n).filter (fun i => indeg i == 0)
  kahnLoop (adjOf steps) indeg q0 [] n

/-- `runLoad.js` / `topoSortSteps(steps)` (lines 59-97): on an incomplete
order (a cycle) it logs a warning and returns `steps` unchanged. -/
def topoSortSteps (steps : List Step) : List Step :=
  let order := topoOrder steps
  if order.length ≠ steps.length then steps
  else order.map (fun idx => steps.getD idx defaultStep)

/-- The dependency relation on step indices. -/
def kahnRel (steps : List Step) (j i : Fin steps.length) : Prop :=
  edgeB steps (j : Nat) (i : Nat) = true

/-- The dependency graph has no directed cycle. -/
def Acyclic (steps : List Step) : Prop :=
  ∀ i : Fin steps.length, ¬ Relation.TransGen (kahnRel steps) i i

/-- The dependency graph has a directed cycle. -/
def HasCycle (steps : List Step) : Prop :=
  ∃ i : Fin steps.length, Relation.TransGen (kahnRel steps) i i

/-- Claim C4 as stated: on a cyclic dependency graph the scheduler does not
silently resolve the cycle by returning the steps in declaration order
(the embedded function is total, so "rejects with a named-cycle error"
can only surface as *not* returning the silent declaration-order
fallback). -/
def C4Prop : Prop :=
  ∀ steps : List Step, HasCycle steps → topoSortSteps steps ≠ steps

/-- The loop invariant of `kahnLoop` relative to the original `steps`. -/
structure KahnInv (steps : List Step) (indeg : Nat → Int)
    (q order : List Nat) : Prop where
  orderNodup : order.Nodup
  orderLt : ∀ v ∈ order, v < steps.length
  qNodup : q.Nodup
  qLt : ∀ v ∈ q, v < steps.length
  qNotInOrder : ∀ v ∈ q, v ∉ order
  qMem : ∀ v, v < steps.length →
    (v ∈ q ↔ v ∉ order ∧
      ∀ j, j < steps.length → edgeB steps j v = true → j ∈ order)
  indegSpec : ∀ v, v < steps.length →
    indeg v = (((List.range steps.length).filter
      (fun j => edgeB steps j v && ! order.contains j)).length : Int)
  orderRespects : ∀ v ∈ order, ∀ j, j < steps.length →
    edgeB steps j v = true →
    j ∈ order ∧ order.indexOf j < order.indexOf v
  tieBreak : ∀ p, p < order.length → ∀ i, i < steps.length →
    i < order.getD p 0 → i ∉ order.take (p + 1) →
    ∃ k, k < steps.length ∧ edgeB steps k i = true ∧ k ∉ order.take p

/-- Claim C8 as stated: reference resolution is idempotent given unchanged
identifier maps, for every record, entry list, identifier-map store and
current entity type on which resolution succeeds. -/
def C8Prop : Prop :=
  ∀ (rec : Record) (entries : List RefEntry) (idMaps : IdMaps)
    (cur : Option String) (r1 : Record),
    resolveReferences rec entries idMaps cur = .ok r1 →
    resolveReferences r1 entries idMaps cur = .ok r1

/-- Claim C10 as stated for reference resolution: a successful
`resolveReferences` call leaves the record at the input address unchanged
and returns a distinct record object. -/
def C10Prop : Prop :=
  ∀ (h : Heap) (a : Nat) (entries : List RefEntry) (idMaps : IdMaps)
    (cur : Option String) (a2 : Nat) (h2 : Heap),
    resolveReferencesH h a entries idMaps cur = .ok (a2, h2) →
    h2.getD a [] = h.getD a [] ∧ a2 ≠ a

/-- C9: a predicate object presenting none of the known keys evaluates to
`true` no matter what other keys it carries. -/
theorem c9_unknown_predicate_evaluates_true
    (rxTest : String → String → String → Bool) (rec : Record)
    (unknownKeys : List String) :
    matchPredicate rxTest rec
      (SpecObj.mk none none none none none none none none none none none
        none none none none none none none unknownKeys) = true := by
  simp [matchPredicate, strTruthy]

/-! ### Record/assoc-list algebra used by the ref-solver proofs -/

theorem getField_eq_none_iff (r : Record) (f : String) :
    getField r f = none ↔ f ∉ keysOf r := by
  induction r with
  | nil => simp [getField, keysOf]
  | cons p rest ih =>
    obtain ⟨k0, v0⟩ := p
    by_cases h : k0 = f
    · simp [getField, keysOf, h]
    · simp [getField, keysOf, h, ih, Ne.symm h]

theorem getField_setField_self (r : Record) (f : String) (v : Val) :
    getField (setField r f v) f = some v := by
  induction r with
  | nil => simp [getField, setField]
  | cons p rest ih =>
    obtain ⟨k0, v0⟩ := p
    by_cases h : k0 = f
    · simp [getField, setField, h]
    · simp [getField, setField, h, ih]

theorem keysOf_nil : keysOf [] = [] := rfl

theorem keysOf_cons (k : String) (v : Val) (r : Record) :
    keysOf ((k, v) :: r) = k :: keysOf r := rfl

theorem getField_setField_ne (r : Record) (f g : String) (v : Val) (h : g ≠ f) :
    getField (setField r f v) g = getField r g := by
  induction r with
  | nil => simp [getField, setField, Ne.symm h]
  | cons p rest ih =>
    obtain ⟨k0, v0⟩ := p
    by_cases hk : k0 = f
    · subst hk
      simp [getField, setField, Ne.symm h]
    · by_cases hg : k0 = g
      · simp [getField, setField, hk, hg, h]
      · simp [getField, setField, hk, hg, ih]

theorem keysOf_setField (r : Record) (f : String) (v : Val) :
    keysOf (setField r f v) =
      if f ∈ keysOf r then keysOf r else keysOf r ++ [f] := by
  induction r with
  | nil => simp [keysOf, setField]
  | cons p rest ih =>
    obtain ⟨k0, v0⟩ := p
    by_cases h : k0 = f
    · simp [keysOf, setField, h]
    · simp only [setField, h, if_false]
      rw [keysOf_cons, keysOf_cons, ih]
      by_cases hm : f ∈ keysOf rest
      · simp [hm, Ne.symm h]
      · simp [hm, Ne.symm h]

theorem mem_keysOf_setField (r : Record) (f g : String) (v : Val) :
    g ∈ keysOf (setField r f v) ↔ g ∈ keysOf r ∨ g = f := by
  rw [keysOf_setField]
  by_cases h : f ∈ keysOf r
  · simp only [h, if_true]
    constructor
    · exact fun hg => Or.inl hg
    · rintro (hg | rfl) <;> [exact hg; exact h]
  · simp [h]

theorem nodup_keysOf_setField (r : Record) (f : String) (v : Val)
    (h : (keysOf r).Nodup) : (keysOf (setField r f v)).Nodup := by
  rw [keysOf_setField]
  by_cases hm : f ∈ keysOf r
  · simpa [hm] using h
  · simp only [hm, if_false]
    simpa [List.nodup_append, hm] using h

theorem record_ext (r1 r2 : Record) (hk : keysOf r1 = keysOf r2)
    (hnd : (keysOf r1).Nodup) (h : ∀ f, getField r1 f = getField r2 f) :
    r1 = r2 := by
  induction r1 generalizing r2 with
  | nil =>
    cases r2 with
    | nil => rfl
    | cons q t2 => simp [keysOf] at hk
  | cons p t ih =>
    obtain ⟨k, v⟩ := p
    cases r2 with
    | nil => simp [keysOf] at hk
    | cons q t2 =>
      obtain ⟨k2, v2⟩ := q
      rw [keysOf_cons, keysOf_cons] at hk
      injection hk with hke hkt
      subst hke
      have hv2 : v = v2 := by
        have hh := h k
        simp [getField] at hh
        exact hh
      subst hv2
      rw [keysOf_cons, List.nodup_cons] at hnd
      have ht : t = t2 := by
        apply ih t2 hkt hnd.2
        intro f
        by_cases hf : f = k
        · subst hf
          rw [(getField_eq_none_iff t f).mpr hnd.1,
            (getField_eq_none_iff t2 f).mpr (hkt ▸ hnd.1)]
        · have hh := h f
          simpa [getField, Ne.symm hf] using hh
      rw [ht]

theorem applyWrites_cons (r : Record) (f : String) (v : Val)
    (ws : List (String × Val)) :
    applyWrites r ((f, v) :: ws) = applyWrites (setField r f v) ws := rfl

theorem getField_applyWrites (ws : List (String × Val)) (r : Record) (g : String) :
    getField (applyWrites r ws) g =
      match lastWrite ws g with
      | some v => some v
      | none => getField r g := by
  induction ws generalizing r with
  | nil => simp [applyWrites, lastWrite]
  | cons w t ih =>
    obtain ⟨f, v⟩ := w
    rw [applyWrites_cons, ih]
    by_cases hl : (lastWrite t g).isSome
    · obtain ⟨u, hu⟩ := Option.isSome_iff_exists.mp hl
      simp [lastWrite, hu, Option.orElse]
    · have hn : lastWrite t g = none := Option.not_isSome_iff_eq_none.mp hl
      by_cases hfg : f = g
      · subst hfg
        simp [lastWrite, hn, Option.orElse, getField_setField_self]
      · simp [lastWrite, hn, Option.orElse, hfg,
          getField_setField_ne r f g v (Ne.symm hfg)]

theorem lastWrite_eq_none_of_not_mem (ws : List (String × Val)) (g : String)
    (h : g ∉ ws.map Prod.fst) : lastWrite ws g = none := by
  induction ws with
  | nil => rfl
  | cons w t ih =>
    obtain ⟨f, v⟩ := w
    simp only [List.map_cons, List.mem_cons] at h
    push_neg at h
    simp [lastWrite, ih h.2, Option.orElse, Ne.symm h.1]

theorem mem_keysOf_applyWrites (ws : List (String × Val)) (r : Record) (a : String) :
    a ∈ keysOf (applyWrites r ws) ↔ a ∈ keysOf r ∨ a ∈ ws.map Prod.fst := by
  induction ws generalizing r with
  | nil => simp [applyWrites]
  | cons w t ih =>
    obtain ⟨f, v⟩ := w
    rw [applyWrites_cons, ih]
    rw [mem_keysOf_setField]
    simp only [List.map_cons, List.mem_cons]
    tauto

theorem keysOf_applyWrites_of_mem (ws : List (String × Val)) (r : Record)
    (h : ∀ w ∈ ws, w.1 ∈ keysOf r) : keysOf (applyWrites r ws) = keysOf r := by
  induction ws generalizing r with
  | nil => rfl
  | cons w t ih =>
    obtain ⟨f, v⟩ := w
    have hf : f ∈ keysOf r := h (f, v) (List.mem_cons_self _ _)
    rw [applyWrites_cons]
    have hks : keysOf (setField r f v) = keysOf r := by
      rw [keysOf_setField]; simp [hf]
    rw [ih (setField r f v) (fun w hw => by
      rw [hks]; exact h w (List.mem_cons_of_mem _ hw))]
    exact hks

theorem nodup_keysOf_applyWrites (ws : List (String × Val)) (r : Record)
    (h : (keysOf r).Nodup) : (keysOf (applyWrites r ws)).Nodup := by
  induction ws generalizing r with
  | nil => exact h
  | cons w t ih =>
    obtain ⟨f, v⟩ := w
    rw [applyWrites_cons]
    exact ih _ (nodup_keysOf_setField _ _ _ h)


/-! ### Key-computation congruence: an entry's lookup key depends on the
record only through the paths the entry reads -/

theorem getByPath_eq_of_agree (written : List String) (p : String)
    (hp : pathReadsOutside written p) (r r2 : Record)
    (hag : ∀ f, f ∉ written → getField r2 f = getField r f) :
    getByPath r2 p = getByPath r p := by
  unfold getByPath
  by_cases hemp : p = ""
  · simp [hemp]
  · have hne : (p == "") = false := by simpa using hemp
    rw [hne]
    simp only [Bool.false_eq_true, if_false]
    unfold pathReadsOutside at hp
    cases hsplit : (splitOnChar '.' p).filter (fun s => s ≠ "") with
    | nil =>
        rw [hsplit] at hp
        exact absurd hp hemp
    | cons h0 t =>
        rw [hsplit] at hp
        have hp2 : h0 ∉ written := hp
        show valGetPath (getField r2 h0) t = valGetPath (getField r h0) t
        rw [hag h0 hp2]

theorem tplPaths_nil : tplPaths [] = [] := rfl

theorem tplPaths_cons_lit (s : String) (t : Tpl) :
    tplPaths (.lit s :: t) = tplPaths t := rfl

theorem tplPaths_cons_hole (e : String) (t : Tpl) :
    tplPaths (.hole e :: t) = jsTrim e :: tplPaths t := rfl

theorem mem_tplPaths_of_hole (tpl : Tpl) (e : String)
    (h : TplPart.hole e ∈ tpl) : jsTrim e ∈ tplPaths tpl := by
  induction tpl with
  | nil => cases h
  | cons x t ih =>
    rcases List.mem_cons.mp h with hx | hm
    · rw [← hx, tplPaths_cons_hole]
      exact List.mem_cons_self _ _
    · cases x with
      | lit s => rw [tplPaths_cons_lit]; exact ih hm
      | hole e2 => rw [tplPaths_cons_hole]; exact List.mem_cons_of_mem _ (ih hm)

theorem renderTemplate_eq_of_agree (tpl : Tpl) (r r2 : Record)
    (hp : ∀ q ∈ tplPaths tpl, getByPath r2 q = getByPath r q) :
    renderTemplate tpl r2 = renderTemplate tpl r := by
  unfold renderTemplate
  congr 1
  apply List.map_congr_left
  intro part hpart
  cases part with
  | lit s => rfl
  | hole e => simp [hp (jsTrim e) (mem_tplPaths_of_hole tpl e hpart)]

theorem refLegacyOrKey_eq_of_agree (e : RefEntry) (c : Option String)
    (r r2 : Record)
    (hp : ∀ p ∈ entryKeyPaths e, getByPath r2 p = getByPath r p) :
    refLegacyOrKey e r2 c = refLegacyOrKey e r c := by
  unfold refLegacyOrKey
  rcases hfl : e.fromLegacy with _ | fe
  · rcases hpt : pickTemplate e with _ | tv
    · rcases hrk : e.refKey with _ | rv
      · simp [hfl, hpt, hrk]
      · cases rv with
        | strT t => simp [hfl, hpt, hrk]
        | arrT paths =>
            have hmap : paths.map (fun k => getByPath r2 k) =
                paths.map (fun k => getByPath r k) := by
              apply List.map_congr_left
              intro q hq
              apply hp
              unfold entryKeyPaths
              rw [hfl, hpt, hrk]
              exact hq
            simp [hfl, hpt, hrk, hmap]
    · cases tv with
      | strT tpl =>
          have hrt : renderTemplate tpl r2 = renderTemplate tpl r := by
            apply renderTemplate_eq_of_agree
            intro q hq
            apply hp
            unfold entryKeyPaths
            rw [hfl, hpt]
            exact hq
          simp [hfl, hpt, hrt]
      | arrT l =>
          rcases hrk : e.refKey with _ | rv
          · simp [hfl, hpt, hrk]
          · cases rv with
            | strT t => simp [hfl, hpt, hrk]
            | arrT paths =>
                have hmap : paths.map (fun k => getByPath r2 k) =
                    paths.map (fun k => getByPath r k) := by
                  apply List.map_congr_left
                  intro q hq
                  apply hp
                  unfold entryKeyPaths
                  rw [hfl, hpt, hrk]
                  exact hq
                simp [hfl, hpt, hrk, hmap]
  · cases fe with
    | parsed obj keyTpl =>
        have hrt : renderTemplate keyTpl r2 = renderTemplate keyTpl r := by
          apply renderTemplate_eq_of_agree
          intro q hq
          apply hp
          unfold entryKeyPaths
          rw [hfl]
          exact hq
        simp [hfl, hrt]
    | badLegacy => simp [hfl]

theorem resolveRef_eq_of_agree (e : RefEntry) (m : IdMaps) (c : Option String)
    (r r2 : Record)
    (hp : ∀ p ∈ entryKeyPaths e, getByPath r2 p = getByPath r p) :
    resolveRef e r2 m c = resolveRef e r m c := by
  unfold resolveRef
  rw [refLegacyOrKey_eq_of_agree e c r r2 hp]

theorem resolveReferences_cons (r : Record) (e : RefEntry)
    (rest : List RefEntry) (m : IdMaps) (c : Option String) :
    resolveReferences r (e :: rest) m c =
      match resolveRef e r m c with
      | .error msg => .error msg
      | .ok none => resolveReferences r rest m c
      | .ok (some v) => resolveReferences (setField r e.field v) rest m c := by
  rcases h : resolveRef e r m c with msg | ov
  · show List.foldlM _ _ _ = _
    rw [List.foldlM_cons]
    simp only [h]
    rfl
  · rcases ov with _ | v
    · show List.foldlM _ _ _ = _
      rw [List.foldlM_cons]
      simp only [h]
      rfl
    · show List.foldlM _ _ _ = _
      rw [List.foldlM_cons]
      simp only [h]
      rfl

/-- Parallel-run lemma: if every entry writes only fields in `W` and reads
its key only outside `W`, then a successful resolution run is a fixed
sequence of field writes, and the same run from any record agreeing with
the original outside `W` performs exactly the same writes. -/
theorem resolveReferences_writes (idMaps : IdMaps) (cur : Option String)
    (W : List String) :
    ∀ (entries : List RefEntry), (∀ e ∈ entries, e.field ∈ W) →
    (∀ e ∈ entries, ∀ p ∈ entryKeyPaths e, pathReadsOutside W p) →
    ∀ (rec rec2 r1 : Record),
      (∀ f, f ∉ W → getField rec2 f = getField rec f) →
      resolveReferences rec entries idMaps cur = .ok r1 →
      ∃ ws, r1 = applyWrites rec ws ∧
        resolveReferences rec2 entries idMaps cur = .ok (applyWrites rec2 ws) ∧
        ∀ w ∈ ws, w.1 ∈ W := by
  intro entries
  induction entries with
  | nil =>
    intro _ _ rec rec2 r1 hag hrun
    refine ⟨[], ?_, ?_, ?_⟩
    · have h : Except.ok rec = Except.ok (ε := String) r1 := hrun
      injection h with h
      rw [h]
      rfl
    · rfl
    · intro w hw; cases hw
  | cons e rest ih =>
    intro hW hreads rec rec2 r1 hag hrun
    have hWe : e.field ∈ W := hW e (List.mem_cons_self _ _)
    have hWrest : ∀ x ∈ rest, x.field ∈ W :=
      fun x hx => hW x (List.mem_cons_of_mem _ hx)
    have hreadsrest : ∀ x ∈ rest, ∀ p ∈ entryKeyPaths x, pathReadsOutside W p :=
      fun x hx => hreads x (List.mem_cons_of_mem _ hx)
    have hcong : resolveRef e rec2 idMaps cur = resolveRef e rec idMaps cur := by
      apply resolveRef_eq_of_agree
      intro p hp
      exact getByPath_eq_of_agree W p (hreads e (List.mem_cons_self _ _) p hp)
        rec rec2 hag
    rw [resolveReferences_cons] at hrun
    rw [resolveReferences_cons, hcong]
    rcases hres : resolveRef e rec idMaps cur with msg | ov
    · rw [hres] at hrun
      exact absurd hrun (by simp)
    · rw [hres] at hrun
      rcases ov with _ | v
      · replace hrun : resolveReferences rec rest idMaps cur = Except.ok r1 := hrun
        obtain ⟨ws, h1, h2, h3⟩ := ih hWrest hreadsrest rec rec2 r1 hag hrun
        exact ⟨ws, h1, h2, h3⟩
      · replace hrun :
            resolveReferences (setField rec e.field v) rest idMaps cur = Except.ok r1 :=
          hrun
        have hag2 : ∀ f, f ∉ W →
            getField (setField rec2 e.field v) f = getField (setField rec e.field v) f := by
          intro f hf
          have hne : f ≠ e.field := fun hfe => hf (hfe ▸ hWe)
          rw [getField_setField_ne _ _ _ _ hne, getField_setField_ne _ _ _ _ hne]
          exact hag f hf
        obtain ⟨ws, h1, h2, h3⟩ := ih hWrest hreadsrest
          (setField rec e.field v) (setField rec2 e.field v) r1 hag2 hrun
        refine ⟨(e.field, v) :: ws, ?_, ?_, ?_⟩
        · rw [applyWrites_cons]; exact h1
        · exact h2
        · intro w hw
          rcases List.mem_cons.mp hw with hw1 | hw2
          · rw [hw1]; exact hWe
          · exact h3 w hw2

/-- C8 (amended): reference resolution is idempotent given unchanged
identifier maps, provided no entry's key computation reads a field that any
entry of the list writes (the counterexample shows the unrestricted claim
fails when an entry's lookup key reads its own target field).  The record
is assumed to have distinct field names, as every JS object does. -/
theorem c8_resolution_idempotent (entries : List RefEntry) (idMaps : IdMaps)
    (cur : Option String) (rec r1 : Record)
    (hnd : (keysOf rec).Nodup)
    (hreads : ∀ e ∈ entries, ∀ p ∈ entryKeyPaths e,
      pathReadsOutside (entries.map (fun e2 => e2.field)) p)
    (hrun : resolveReferences rec entries idMaps cur = .ok r1) :
    resolveReferences r1 entries idMaps cur = .ok r1 := by
  have hWmem : ∀ e ∈ entries, e.field ∈ entries.map (fun e2 => e2.field) :=
    fun e he => List.mem_map_of_mem _ he
  obtain ⟨ws, hr1, _, hws⟩ :=
    resolveReferences_writes idMaps cur (entries.map (fun e2 => e2.field))
      entries hWmem hreads rec rec r1 (fun f _ => rfl) hrun
  have hag : ∀ f, f ∉ entries.map (fun e2 => e2.field) →
      getField r1 f = getField rec f := by
    intro f hf
    rw [hr1, getField_applyWrites]
    have hlw : lastWrite ws f = none := by
      apply lastWrite_eq_none_of_not_mem
      intro hmem
      obtain ⟨w, hw, hfw⟩ := List.mem_map.mp hmem
      exact hf (hfw ▸ hws w hw)
    rw [hlw]
  obtain ⟨ws2, hr1b, hrun2, hws2⟩ :=
    resolveReferences_writes idMaps cur (entries.map (fun e2 => e2.field))
      entries hWmem hreads rec r1 r1 hag hrun
  have hfields : ∀ w ∈ ws2, w.1 ∈ keysOf r1 := by
    intro w hw
    rw [hr1b, mem_keysOf_applyWrites]
    right
    exact List.mem_map_of_mem _ hw
  have hkeys : keysOf (applyWrites r1 ws2) = keysOf r1 :=
    keysOf_applyWrites_of_mem ws2 r1 hfields
  have hnd1 : (keysOf r1).Nodup := by
    rw [hr1b]
    exact nodup_keysOf_applyWrites _ _ hnd
  have hget : ∀ g, getField (applyWrites r1 ws2) g = getField r1 g := by
    intro g
    rw [getField_applyWrites]
    cases hl : lastWrite ws2 g with
    | none => simp
    | some v =>
        have h2 : getField r1 g = some v := by
          rw [hr1b, getField_applyWrites, hl]
        rw [h2]
  have hext : applyWrites r1 ws2 = r1 :=
    record_ext _ _ hkeys (by rw [hkeys]; exact hnd1) hget
  rw [hrun2, hext]

/-- C8 counterexample: with an entry whose lookup key reads the very field
it writes (`AccountId` looked up by path "AccountId" with `onMissing:
"null"`), the first resolution succeeds and writes the platform id, but
resolving the already-resolved record again replaces the id with `null` —
resolution is not idempotent as claimed. -/
theorem c8_counterexample : ¬ C8Prop := by
  intro h
  have h2 := h [("AccountId", Val.vstr "k")]
    [{ field := "AccountId", refKey := some (.arrT ["AccountId"]),
       onMissing := some "null" }]
    [("Account", [("k", Val.vstr "001")])] none
    [("AccountId", Val.vstr "001")] rfl
  have hcomp : resolveReferences [("AccountId", Val.vstr "001")]
      [{ field := "AccountId", refKey := some (.arrT ["AccountId"]),
         onMissing := some "null" }]
      [("Account", [("k", Val.vstr "001")])] none =
      .ok [("AccountId", Val.vnull)] := rfl
  rw [hcomp] at h2
  simp at h2

/-- Witness for the amended C8 theorem: a two-field record whose reference
entry reads `AccountExt` and writes `AccountId`; resolving twice yields the
same record. -/
theorem c8_resolution_idempotent_witness :
    resolveReferences [("AccountExt", Val.vstr "k"), ("AccountId", Val.vstr "001")]
      [{ field := "AccountId", refKey := some (.arrT ["AccountExt"]) }]
      [("Account", [("k", Val.vstr "001")])] none =
      .ok [("AccountExt", Val.vstr "k"), ("AccountId", Val.vstr "001")] := by
  refine c8_resolution_idempotent
    [{ field := "AccountId", refKey := some (.arrT ["AccountExt"]) }]
    [("Account", [("k", Val.vstr "001")])] none
    [("AccountExt", Val.vstr "k")]
    [("AccountExt", Val.vstr "k"), ("AccountId", Val.vstr "001")]
    (by decide) ?_ rfl
  intro e he p hp
  simp only [List.mem_singleton] at he
  subst he
  have hp2 : p ∈ ["AccountExt"] := hp
  simp only [List.mem_singleton] at hp2
  subst hp2
  exact (by decide : ("AccountExt" : String) ∉ ["AccountId"])

/-- C5: `resolveRef` on a custom lookup (`Parent_Product__c`, no inferable
target, no `refObject`) does not raise the "cannot infer target object"
error: the line-96 fallback `|| currentObject` silently targets the current
entity type's bucket, here resolving to that bucket's id. -/
theorem c5_custom_lookup_silently_targets_current_object :
    resolveRef
      { field := "Parent_Product__c", refKey := some (.arrT ["K"]),
        onMissing := some "null" }
      [("K", Val.vstr "x")]
      [("Product2", [("x", Val.vstr "001ABC")])]
      (some "Product2") = .ok (some (Val.vstr "001ABC")) := rfl

/-- C10 counterexample: a successful `resolveReferences` call can change
the record stored at the input address and return the input address itself,
contradicting "input unchanged, result distinct". -/
theorem c10_counterexample : ¬ C10Prop := by
  intro h
  have h2 := h [[("AccountExt", Val.vstr "k")]] 0
    [{ field := "AccountId", refKey := some (.arrT ["AccountExt"]) }]
    [("Account", [("k", Val.vstr "001")])] none 0
    [[("AccountExt", Val.vstr "k"), ("AccountId", Val.vstr "001")]] rfl
  exact h2.2 rfl

/-- C10 (amended): `resolveReferences` mutates in place, per its own
doc comment "(mutates and returns it)": on success the same address comes
back, the record at that address now holds the resolved state, and every
other address is untouched. -/
theorem c10_resolveReferences_mutates_in_place (h : Heap) (a : Nat)
    (entries : List RefEntry) (idMaps : IdMaps) (cur : Option String)
    (r2 : Record) (ha : a < h.length)
    (hrun : resolveReferences (h.getD a []) entries idMaps cur = .ok r2) :
    ∃ h2, resolveReferencesH h a entries idMaps cur = .ok (a, h2) ∧
      h2.getD a [] = r2 ∧ ∀ b, b ≠ a → h2.getD b [] = h.getD b [] := by
  refine ⟨h.set a r2, ?_, ?_, ?_⟩
  · unfold resolveReferencesH
    rw [hrun]
  · simp [List.getD_eq_getElem?_getD, List.getElem?_set_self, ha]
  · intro b hb
    simp [List.getD_eq_getElem?_getD, List.getElem?_set_ne (Ne.symm hb)]

/-- Witness for the amended C10 theorem at a concrete one-record heap. -/
theorem c10_mutates_witness :
    ∃ h2, resolveReferencesH [[("AccountExt", Val.vstr "k")]] 0
        [{ field := "AccountId", refKey := some (.arrT ["AccountExt"]) }]
        [("Account", [("k", Val.vstr "001")])] none = .ok (0, h2) ∧
      h2.getD 0 [] = [("AccountExt", Val.vstr "k"), ("AccountId", Val.vstr "001")] ∧
      ∀ b, b ≠ 0 → h2.getD b [] = [[("AccountExt", Val.vstr "k")]].getD b [] :=
  c10_resolveReferences_mutates_in_place
    [[("AccountExt", Val.vstr "k")]] 0
    [{ field := "AccountId", refKey := some (.arrT ["AccountExt"]) }]
    [("Account", [("k", Val.vstr "001")])] none
    [("AccountExt", Val.vstr "k"), ("AccountId", Val.vstr "001")]
    (by decide) rfl

/-- C7 evidence: on the insert path, `commitREST` filters the raw results
and then indexes entries by their position **within the filtered list**:
with results `[failure, success(id "001")]` the created entry carries
`index = 0` although the successfully inserted record's original input
index is 1 (both the created and the failure entry claim index 0).  The
upsert path (lines 46-78) and the spec keyed entries by input index. -/
theorem c7_insert_path_misindexes_entries :
    commitRESTInsert
      [some { success := some false, errors := ["boom"] },
       some { success := some true, id := some "001" }] =
      { created := [{ index := 0, id := some "001" }],
        failures := [{ index := 0, id := none, messages := ["boom"] }] } := rfl

/-- C2 counterexample: the REST upsert reconciler pairs `results[i]` with
`batch[i]` positionally, so when the two collaborator rows come back
swapped, business key "A" is mapped to "idB" and vice versa — the pairs
are not even a reordering of the correct ones. -/
theorem c2_counterexample : ¬ C2Prop := by
  intro h
  have hperm :
      ([some { success := some true, created := true, id := some "idB" },
        some { success := some true, created := true, id := some "idA" }] :
        List (Option SaveRes)).Perm
      [some { success := some true, created := true, id := some "idA" },
       some { success := some true, created := true, id := some "idB" }] :=
    List.Perm.swap _ _ _
  have hp := h (fun _ => []) [[("Ext", .vstr "A")], [("Ext", .vstr "B")]]
    [some { success := some true, created := true, id := some "idA" },
     some { success := some true, created := true, id := some "idB" }]
    [some { success := some true, created := true, id := some "idB" },
     some { success := some true, created := true, id := some "idA" }]
    (some "Ext")
    { created :=
        [{ index := 0, key := .vstr "A", id := some "idA",
           externalId := some (.vstr "A") },
         { index := 1, key := .vstr "B", id := some "idB",
           externalId := some (.vstr "B") }],
      updated := [], failures := [], processedRecords := [] }
    { created :=
        [{ index := 0, key := .vstr "A", id := some "idB",
           externalId := some (.vstr "A") },
         { index := 1, key := .vstr "B", id := some "idA",
           externalId := some (.vstr "B") }],
      updated := [], failures := [], processedRecords := [] }
    hperm rfl rfl
  have h1 :
      keyIdPairs
        { created :=
            [{ index := 0, key := .vstr "A", id := some "idA",
               externalId := some (.vstr "A") },
             { index := 1, key := .vstr "B", id := some "idB",
               externalId := some (.vstr "B") }],
          updated := [], failures := [], processedRecords := [] } =
      [(Val.vstr "A", some "idA"), (Val.vstr "B", some "idB")] := rfl
  have h2 :
      keyIdPairs
        { created :=
            [{ index := 0, key := .vstr "A", id := some "idB",
               externalId := some (.vstr "A") },
             { index := 1, key := .vstr "B", id := some "idA",
               externalId := some (.vstr "B") }],
          updated := [], failures := [], processedRecords := [] } =
      [(Val.vstr "A", some "idB"), (Val.vstr "B", some "idA")] := rfl
  rw [h1, h2] at hp
  have hmem : (Val.vstr "A", (some "idA" : Option String)) ∈
      [(Val.vstr "A", some "idB"), (Val.vstr "B", some "idA")] :=
    hp.mem_iff.mp (List.mem_cons_self _ _)
  simp at hmem

/-! ### JS Map algebra for the bulk reconciliation proofs -/

theorem strictEq_symm (a b : Val) : Val.strictEq a b = Val.strictEq b a := by
  cases a <;> cases b <;> simp [Val.strictEq, beq_iff_eq] <;> exact eq_comm

theorem strictEq_trans {a b c : Val} (h1 : Val.strictEq a b = true)
    (h2 : Val.strictEq b c = true) : Val.strictEq a c = true := by
  cases a <;> cases b <;> cases c <;>
    simp [Val.strictEq, beq_iff_eq] at h1 h2 ⊢
  all_goals exact h1.trans h2

theorem mapGet_mapSet {α : Type} (m : List (Val × α)) (k k2 : Val) (v : α) :
    mapGet (mapSet m k v) k2 =
      if Val.strictEq k k2 then some v else mapGet m k2 := by
  induction m with
  | nil =>
    cases hk : Val.strictEq k k2 <;> simp [mapGet, mapSet, List.find?, hk]
  | cons p t ih =>
    obtain ⟨k0, v0⟩ := p
    by_cases h0 : Val.strictEq k0 k
    · by_cases h2 : Val.strictEq k0 k2
      · have hk : Val.strictEq k k2 = true := by
          have hsym : Val.strictEq k k0 = true := (strictEq_symm k0 k) ▸ h0
          exact strictEq_trans hsym h2
        simp [mapGet, mapSet, List.find?, h0, h2, hk]
      · have hk : Val.strictEq k k2 = false := by
          by_contra hc
          have hc2 : Val.strictEq k k2 = true := by
            cases hcc : Val.strictEq k k2 with
            | true => rfl
            | false => exact absurd hcc hc
          exact absurd (strictEq_trans h0 hc2) (by simp [h2])
        simp [mapGet, mapSet, List.find?, h0, h2, hk]
    · by_cases h2 : Val.strictEq k0 k2
      · have hk : Val.strictEq k k2 = false := by
          by_contra hc
          have hc2 : Val.strictEq k k2 = true := by
            cases hcc : Val.strictEq k k2 with
            | true => rfl
            | false => exact absurd hcc hc
          have h2sym : Val.strictEq k2 k = true := (strictEq_symm k k2) ▸ hc2
          exact absurd (strictEq_trans h2 h2sym) (by simp [h0])
        simp [mapGet, mapSet, List.find?, h0, h2, hk, ih]
      · have hset : mapSet ((k0, v0) :: t) k v = (k0, v0) :: mapSet t k v := by
          simp [mapSet, h0]
        have hg1 : mapGet ((k0, v0) :: mapSet t k v) k2 = mapGet (mapSet t k v) k2 := by
          simp [mapGet, List.find?, h2]
        have hg2 : mapGet ((k0, v0) :: t) k2 = mapGet t k2 := by
          simp [mapGet, List.find?, h2]
        rw [hset, hg1, ih, hg2]

theorem successStep_get (ext : String) (m : List (Val × Record)) (r : Record)
    (k : Val) :
    mapGet (successStep ext m r) k =
      match truthyOrNone (keyFromSuccess ext r) with
      | some k0 => if Val.strictEq k0 k then some r else mapGet m k
      | none => mapGet m k := by
  unfold successStep
  cases truthyOrNone (keyFromSuccess ext r) with
  | none => rfl
  | some k0 => rw [mapGet_mapSet]

theorem failureStep_get (ext : String) (m : List (Val × List String))
    (r : Record) (k : Val) :
    mapGet (failureStep ext m r) k =
      match truthyOrNone (keyFromFailure ext r) with
      | some k0 =>
          if Val.strictEq k0 k then some ((mapGet m k0).getD [] ++ [failureMsg r])
          else mapGet m k
      | none => mapGet m k := by
  unfold failureStep
  cases truthyOrNone (keyFromFailure ext r) with
  | none => rfl
  | some k0 => rw [mapGet_mapSet]

theorem foldS_get_congr (ext : String) (l : List Record) :
    ∀ m1 m2, (∀ k, mapGet m1 k = mapGet m2 k) →
    ∀ k, mapGet (l.foldl (successStep ext) m1) k =
      mapGet (l.foldl (successStep ext) m2) k := by
  induction l with
  | nil => intro m1 m2 h k; exact h k
  | cons r t ih =>
    intro m1 m2 h k
    simp only [List.foldl_cons]
    apply ih
    intro k2
    rw [successStep_get, successStep_get]
    cases truthyOrNone (keyFromSuccess ext r) with
    | none => exact h k2
    | some k0 =>
        by_cases hk : Val.strictEq k0 k2 <;> simp [hk, h k2]

theorem foldF_get_congr (ext : String) (l : List Record) :
    ∀ m1 m2, (∀ k, mapGet m1 k = mapGet m2 k) →
    ∀ k, mapGet (l.foldl (failureStep ext) m1) k =
      mapGet (l.foldl (failureStep ext) m2) k := by
  induction l with
  | nil => intro m1 m2 h k; exact h k
  | cons r t ih =>
    intro m1 m2 h k
    simp only [List.foldl_cons]
    apply ih
    intro k2
    rw [failureStep_get, failureStep_get]
    cases truthyOrNone (keyFromFailure ext r) with
    | none => exact h k2
    | some k0 =>
        by_cases hk : Val.strictEq k0 k2 <;> simp [hk, h k2, h k0]

theorem distinctKeys_symmRel {α : Type} (keyOf : α → Option Val) :
    Symmetric (fun r1 r2 => ∀ k1 k2, keyOf r1 = some k1 → keyOf r2 = some k2 →
      Val.strictEq k1 k2 = false) := by
  intro r1 r2 h k1 k2 h1 h2
  have := h k2 k1 h2 h1
  rw [strictEq_symm]
  exact this

theorem successStep_swap_get (ext : String) (m : List (Val × Record))
    (x y : Record)
    (hxy : ∀ k1 k2, truthyOrNone (keyFromSuccess ext y) = some k1 →
      truthyOrNone (keyFromSuccess ext x) = some k2 → Val.strictEq k1 k2 = false)
    (k : Val) :
    mapGet (successStep ext (successStep ext m y) x) k =
      mapGet (successStep ext (successStep ext m x) y) k := by
  rw [successStep_get, successStep_get, successStep_get, successStep_get]
  cases hx : truthyOrNone (keyFromSuccess ext x) with
  | none =>
      cases hy : truthyOrNone (keyFromSuccess ext y) with
      | none => rfl
      | some ky => rfl
  | some kx =>
      cases hy : truthyOrNone (keyFromSuccess ext y) with
      | none => rfl
      | some ky =>
          have hne : Val.strictEq ky kx = false := hxy ky kx hy hx
          by_cases h1 : Val.strictEq kx k
          · by_cases h2 : Val.strictEq ky k
            · have : Val.strictEq ky kx = true :=
                strictEq_trans h2 ((strictEq_symm kx k) ▸ h1)
              rw [this] at hne
              cases hne
            · simp [h1, h2]
          · by_cases h2 : Val.strictEq ky k <;> simp [h1, h2]

theorem failureStep_swap_get (ext : String) (m : List (Val × List String))
    (x y : Record)
    (hxy : ∀ k1 k2, truthyOrNone (keyFromFailure ext y) = some k1 →
      truthyOrNone (keyFromFailure ext x) = some k2 → Val.strictEq k1 k2 = false)
    (k : Val) :
    mapGet (failureStep ext (failureStep ext m y) x) k =
      mapGet (failureStep ext (failureStep ext m x) y) k := by
  cases hx : truthyOrNone (keyFromFailure ext x) with
  | none =>
      have hsx : ∀ m2 : List (Val × List String), failureStep ext m2 x = m2 := by
        intro m2; unfold failureStep; rw [hx]
      rw [hsx, hsx]
  | some kx =>
      cases hy : truthyOrNone (keyFromFailure ext y) with
      | none =>
          have hsy : ∀ m2 : List (Val × List String), failureStep ext m2 y = m2 := by
            intro m2; unfold failureStep; rw [hy]
          rw [hsy, hsy]
      | some ky =>
          have hne : Val.strictEq ky kx = false := hxy ky kx hy hx
          have hnesym : Val.strictEq kx ky = false := by
            rw [strictEq_symm]; exact hne
          by_cases h1 : Val.strictEq kx k
          · by_cases h2 : Val.strictEq ky k
            · have : Val.strictEq ky kx = true :=
                strictEq_trans h2 ((strictEq_symm kx k) ▸ h1)
              rw [this] at hne
              cases hne
            · simp only [failureStep_get, hx, hy, h1, h2, hne, hnesym,
                if_true, if_false, Bool.false_eq_true]
          · by_cases h2 : Val.strictEq ky k <;>
              simp only [failureStep_get, hx, hy, h1, h2, hne, hnesym,
                if_true, if_false, Bool.false_eq_true]

theorem foldS_get_perm (ext : String) {l1 l2 : List Record}
    (hp : l1.Perm l2)
    (hd : distinctKeys (fun r => truthyOrNone (keyFromSuccess ext r)) l1) :
    ∀ m k, mapGet (l1.foldl (successStep ext) m) k =
      mapGet (l2.foldl (successStep ext) m) k := by
  induction hp with
  | nil => intro m k; rfl
  | cons x p ih =>
      intro m k
      simp only [List.foldl_cons]
      exact ih ((List.pairwise_cons.mp hd).2) (successStep ext m x) k
  | swap x y l =>
      intro m k
      simp only [List.foldl_cons]
      apply foldS_get_congr
      intro k2
      apply successStep_swap_get
      exact (List.pairwise_cons.mp hd).1 x (List.mem_cons_self _ _)
  | trans p1 p2 ih1 ih2 =>
      intro m k
      rw [ih1 hd m k]
      have hsym := distinctKeys_symmRel (fun r => truthyOrNone (keyFromSuccess ext r))
      exact ih2 ((List.Perm.pairwise_iff (fun {u v} h => hsym h) p1).mp hd) m k

theorem foldF_get_perm (ext : String) {l1 l2 : List Record}
    (hp : l1.Perm l2)
    (hd : distinctKeys (fun r => truthyOrNone (keyFromFailure ext r)) l1) :
    ∀ m k, mapGet (l1.foldl (failureStep ext) m) k =
      mapGet (l2.foldl (failureStep ext) m) k := by
  induction hp with
  | nil => intro m k; rfl
  | cons x p ih =>
      intro m k
      simp only [List.foldl_cons]
      exact ih ((List.pairwise_cons.mp hd).2) (failureStep ext m x) k
  | swap x y l =>
      intro m k
      simp only [List.foldl_cons]
      apply foldF_get_congr
      intro k2
      apply failureStep_swap_get
      exact (List.pairwise_cons.mp hd).1 x (List.mem_cons_self _ _)
  | trans p1 p2 ih1 ih2 =>
      intro m k
      rw [ih1 hd m k]
      have hsym := distinctKeys_symmRel (fun r => truthyOrNone (keyFromFailure ext r))
      exact ih2 ((List.Perm.pairwise_iff (fun {u v} h => hsym h) p1).mp hd) m k

theorem bulkRowResult_congr (s1 s2 : List (Val × Record))
    (f1 f2 : List (Val × List String)) (ext : String) (batch : List Record)
    (hs : ∀ k, mapGet s1 k = mapGet s2 k) (hf : ∀ k, mapGet f1 k = mapGet f2 k)
    (i : Nat) :
    bulkRowResult s1 f1 ext batch i = bulkRowResult s2 f2 ext batch i := by
  unfold bulkRowResult
  simp only [hs, hf]

theorem bulkAssemble_congr (findByExt : List Val → List Record)
    (batch : List Record) (ext : String) (s1 s2 : List (Val × Record))
    (f1 f2 : List (Val × List String))
    (hs : ∀ k, mapGet s1 k = mapGet s2 k)
    (hf : ∀ k, mapGet f1 k = mapGet f2 k) :
    bulkAssemble findByExt batch ext s1 f1 = bulkAssemble findByExt batch ext s2 f2 := by
  unfold bulkAssemble
  have hres : (List.range batch.length).map (bulkRowResult s1 f1 ext batch) =
      (List.range batch.length).map (bulkRowResult s2 f2 ext batch) := by
    apply List.map_congr_left
    intro i _
    exact bulkRowResult_congr s1 s2 f1 f2 ext batch hs hf i
  rw [hres]

/-- C2 (amended, bulk half): the Bulk-2.0 upsert reconciler keys rows by
the configured external-identifier field, so as long as the collaborator
reports each key at most once, any reordering of its success and failure
row lists produces exactly the same reconciliation (same created, updated,
failures, and verification query). -/
theorem c2_bulk_upsert_perm_invariant (findByExt : List Val → List Record)
    (batch : List Record) (ext : String)
    (sres sres2 fres fres2 : List Record)
    (hs : sres2.Perm sres) (hf : fres2.Perm fres)
    (hds : distinctKeys (fun r => truthyOrNone (keyFromSuccess ext r)) sres2)
    (hdf : distinctKeys (fun r => truthyOrNone (keyFromFailure ext r)) fres2) :
    commitBulkUpsert findByExt batch (some ext) sres2 fres2 =
      commitBulkUpsert findByExt batch (some ext) sres fres := by
  have hred : ∀ s f : List Record,
      commitBulkUpsert findByExt batch (some ext) s f =
        match (List.range batch.length).find? (fun i =>
          jsTrim (jsString ((nullish (getField (batch.getD i []) ext)).getD (.vstr ""))) == "") with
        | some i =>
            .error ("Missing " ++ ext ++ " just before bulk upsert for row#" ++
              toString i)
        | none =>
            .ok (bulkAssemble findByExt batch ext (buildSuccessMap ext s)
              (buildFailureMap ext f)) :=
    fun s f => rfl
  rw [hred, hred]
  cases hg : (List.range batch.length).find? (fun i =>
      jsTrim (jsString ((nullish (getField (batch.getD i []) ext)).getD (.vstr ""))) == "") with
  | some i => rfl
  | none =>
      have hok := bulkAssemble_congr findByExt batch ext
        (buildSuccessMap ext sres2) (buildSuccessMap ext sres)
        (buildFailureMap ext fres2) (buildFailureMap ext fres)
        (fun k => foldS_get_perm ext hs hds [] k)
        (fun k => foldF_get_perm ext hf hdf [] k)
      exact congrArg Except.ok hok

/-- Witness for the bulk-invariance theorem: two success rows returned in
the opposite order reconcile identically. -/
theorem c2_bulk_upsert_perm_invariant_witness :
    commitBulkUpsert (fun _ => []) [[("Ext", .vstr "A")], [("Ext", .vstr "B")]]
      (some "Ext")
      [[("Ext", .vstr "B"), ("sf__Id", .vstr "idB"), ("sf__Created", .vstr "false")],
       [("Ext", .vstr "A"), ("sf__Id", .vstr "idA"), ("sf__Created", .vstr "true")]]
      [] =
    commitBulkUpsert (fun _ => []) [[("Ext", .vstr "A")], [("Ext", .vstr "B")]]
      (some "Ext")
      [[("Ext", .vstr "A"), ("sf__Id", .vstr "idA"), ("sf__Created", .vstr "true")],
       [("Ext", .vstr "B"), ("sf__Id", .vstr "idB"), ("sf__Created", .vstr "false")]]
      [] := by
  refine c2_bulk_upsert_perm_invariant (fun _ => [])
    [[("Ext", .vstr "A")], [("Ext", .vstr "B")]] "Ext"
    [[("Ext", .vstr "A"), ("sf__Id", .vstr "idA"), ("sf__Created", .vstr "true")],
     [("Ext", .vstr "B"), ("sf__Id", .vstr "idB"), ("sf__Created", .vstr "false")]]
    [[("Ext", .vstr "B"), ("sf__Id", .vstr "idB"), ("sf__Created", .vstr "false")],
     [("Ext", .vstr "A"), ("sf__Id", .vstr "idA"), ("sf__Created", .vstr "true")]]
    [] [] (List.Perm.swap _ _ _) (List.Perm.refl _) ?_ ?_
  · refine List.Pairwise.cons ?_ (List.Pairwise.cons (fun r hr => absurd hr (by simp)) List.Pairwise.nil)
    intro r hr k1 k2 h1 h2
    have hr2 : r = [("Ext", Val.vstr "A"), ("sf__Id", .vstr "idA"), ("sf__Created", .vstr "true")] := by
      simpa using hr
    subst hr2
    have e1 : some (Val.vstr "B") = some k1 := h1
    have e2 : some (Val.vstr "A") = some k2 := h2
    injection e1 with e1
    injection e2 with e2
    subst e1
    subst e2
    rfl
  · exact List.Pairwise.nil

/-! ### C1/C6: the insertAndMap reconcile layer -/

theorem getField_setField_ne_none (m : Record) (f k : String) (v : Val) :
    getField (setField m f v) k ≠ none ↔ k = f ∨ getField m k ≠ none := by
  by_cases h : k = f
  · subst h
    simp [getField_setField_self]
  · rw [getField_setField_ne m f k v h]
    simp [h]

/-- One verified row's contribution to the reconciled map. -/
def rowContributes (extField : Option String) (k : String) (rec : Record) : Prop :=
  (truthyOrNone (sidOfProcessed rec)).isSome ∧
    ∃ kv, truthyOrNone (getField rec (extField.getD "undefined")) = some kv ∧
      jsString kv = k

theorem getField_reconcileFold (extField : Option String) (k : String)
    (pr : List Record) :
    ∀ m : Record,
      getField (pr.foldl
        (fun m rec =>
          let sid := sidOfProcessed rec
          let key := getField rec (extField.getD "undefined")
          match truthyOrNone sid, truthyOrNone key with
          | some s, some kv => setField m (jsString kv) s
          | _, _ => m) m) k ≠ none ↔
      getField m k ≠ none ∨ ∃ rec ∈ pr, rowContributes extField k rec := by
  induction pr with
  | nil => intro m; simp
  | cons r t ih =>
    intro m
    simp only [List.foldl_cons]
    rw [ih]
    cases hsid : truthyOrNone (sidOfProcessed r) with
    | none =>
        simp only []
        constructor
        · rintro (hm | hex)
          · exact Or.inl hm
          · exact Or.inr ⟨_, List.mem_cons_of_mem _ hex.choose_spec.1, hex.choose_spec.2⟩
        · rintro (hm | ⟨rec, hrec, hc⟩)
          · exact Or.inl hm
          · rcases List.mem_cons.mp hrec with hre | hre
            · subst hre
              obtain ⟨h1, _⟩ := hc
              rw [hsid] at h1
              simp at h1
            · exact Or.inr ⟨rec, hre, hc⟩
    | some s =>
        cases hkey : truthyOrNone (getField r (extField.getD "undefined")) with
        | none =>
            simp only []
            constructor
            · rintro (hm | hex)
              · exact Or.inl hm
              · exact Or.inr ⟨_, List.mem_cons_of_mem _ hex.choose_spec.1,
                  hex.choose_spec.2⟩
            · rintro (hm | ⟨rec, hrec, hc⟩)
              · exact Or.inl hm
              · rcases List.mem_cons.mp hrec with hre | hre
                · subst hre
                  obtain ⟨_, ⟨kv, hkv, _⟩⟩ := hc
                  rw [hkey] at hkv
                  cases hkv
                · exact Or.inr ⟨rec, hre, hc⟩
        | some kv =>
            simp only []
            rw [getField_setField_ne_none]
            constructor
            · rintro ((hk | hm) | hex)
              · exact Or.inr ⟨r, List.mem_cons_self _ _,
                  by rw [hsid]; simp, kv, hkey, hk.symm⟩
              · exact Or.inl hm
              · exact Or.inr ⟨_, List.mem_cons_of_mem _ hex.choose_spec.1,
                  hex.choose_spec.2⟩
            · rintro (hm | ⟨rec, hrec, hc⟩)
              · exact Or.inl (Or.inr hm)
              · rcases List.mem_cons.mp hrec with hre | hre
                · subst hre
                  obtain ⟨_, kv2, hkv2, hjk⟩ := hc
                  rw [hkey] at hkv2
                  injection hkv2 with hkv2
                  subst hkv2
                  exact Or.inl (Or.inl hjk.symm)
                · exact Or.inr ⟨rec, hre, hc⟩

theorem getField_reconcileUpsertBatch (extField : Option String) (m : Record)
    (out : CommitOut) (k : String) :
    getField (reconcileUpsertBatch extField m out) k ≠ none ↔
      getField m k ≠ none ∨
        (out.failures = [] ∧ ∃ rec ∈ out.processedRecords,
          rowContributes extField k rec) := by
  unfold reconcileUpsertBatch
  cases hf : out.failures with
  | nil =>
      simp only [List.length_nil, gt_iff_lt, lt_self_iff_false, if_false]
      rw [getField_reconcileFold]
      simp
  | cons f t =>
      simp only [List.length_cons]
      have hgt : (0 < t.length + 1) = True := by simp
      simp only [gt_iff_lt, hgt, if_true, List.foldl_nil]
      constructor
      · exact fun hm => Or.inl hm
      · rintro (hm | ⟨hfemp, _⟩)
        · exact hm
        · cases hfemp

theorem commitLoop_upsert_characterization
    (commitFn : List Record → Except String CommitOut) (ext : Option String)
    (k : String) :
    ∀ (batches : List (List Record)) (trace0 : List (List Record))
      (m0 m : Record) (trace : List (List Record)),
      commitLoop commitFn (fun m2 _b out => reconcileUpsertBatch ext m2 out)
        batches trace0 m0 = (trace, .ok m) →
      (getField m k ≠ none ↔
        getField m0 k ≠ none ∨ ∃ b ∈ batches, batchContributes commitFn ext k b) := by
  intro batches
  induction batches with
  | nil =>
    intro trace0 m0 m trace hrun
    unfold commitLoop at hrun
    injection hrun with h1 h2
    injection h2 with h2
    subst h2
    simp
  | cons b rest ih =>
    intro trace0 m0 m trace hrun
    unfold commitLoop at hrun
    cases hcf : commitFn b with
    | error msg =>
        rw [hcf] at hrun
        injection hrun with h1 h2
        cases h2
    | ok out =>
        rw [hcf] at hrun
        have hiff := ih (trace0 ++ [b]) (reconcileUpsertBatch ext m0 out) m trace hrun
        rw [hiff, getField_reconcileUpsertBatch]
        constructor
        · rintro ((hm | ⟨hfe, rec, hrec, hc⟩) | ⟨b2, hb2, hcon⟩)
          · exact Or.inl hm
          · exact Or.inr ⟨b, List.mem_cons_self _ _, out, hcf, hfe, rec, hrec, hc⟩
          · exact Or.inr ⟨b2, List.mem_cons_of_mem _ hb2, hcon⟩
        · rintro (hm | ⟨b2, hb2, hcon⟩)
          · exact Or.inl (Or.inl hm)
          · rcases List.mem_cons.mp hb2 with hbe | hbe
            · subst hbe
              obtain ⟨out2, hcf2, hfe, rec, hrec, hc⟩ := hcon
              rw [hcf] at hcf2
              injection hcf2 with hcf2
              subst hcf2
              exact Or.inl (Or.inr ⟨hfe, rec, hrec, hc⟩)
            · exact Or.inr ⟨b2, hbe, hcon⟩

/-- C1 (amended): for the upsert reconcile layer of `insertAndMap`, the
returned identifier map has an entry for business key `k` iff some
submitted batch's commit call came back with **zero** per-record failures
and its verification query returned a row for `k` with a truthy platform
id.  In particular a single per-record failure suppresses the entries of
every successfully committed row of that same batch (only other batches
still contribute), and failed rows never contribute. -/
theorem c1_reconciled_map_characterization
    (commitFn : List Record → Except String CommitOut) (ext : Option String)
    (k : String) (batches trace : List (List Record)) (m : Record)
    (hrun : commitLoop commitFn (fun m2 _b out => reconcileUpsertBatch ext m2 out)
      batches [] [] = (trace, .ok m)) :
    getField m k ≠ none ↔ ∃ b ∈ batches, batchContributes commitFn ext k b := by
  rw [commitLoop_upsert_characterization commitFn ext k batches [] [] m trace hrun]
  simp [getField]

/-- Witness for the amended C1 theorem: one clean batch contributes its
verified row's entry. -/
theorem c1_reconciled_map_witness :
    getField [("A", Val.vstr "idA")] "A" ≠ none ↔
      ∃ b ∈ [[[("Ext", Val.vstr "A")]]],
        batchContributes
          (fun _ => Except.ok
            (CommitOut.mk [] [[("Ext", Val.vstr "A"), ("Id", Val.vstr "idA")]]))
          (some "Ext") "A" b :=
  c1_reconciled_map_characterization
    (fun _ => Except.ok
      (CommitOut.mk [] [[("Ext", Val.vstr "A"), ("Id", Val.vstr "idA")]]))
    (some "Ext") "A" [[[("Ext", Val.vstr "A")]]] [[[("Ext", Val.vstr "A")]]]
    [("A", Val.vstr "idA")] rfl

/-- C1 counterexample: a 2-row batch where the collaborator reports row 0
as successfully upserted (id "idA") and row 1 as failed; because the batch
has a failure, `insertAndMap` discards `processedRecords` for the whole
batch and the successfully committed row 0 adds no entry to the map. -/
theorem c1_counterexample : ¬ C1Prop := by
  intro h
  exact h
    (fun _ => [[("Ext", Val.vstr "A"), ("Id", Val.vstr "idA")]])
    [[("Ext", Val.vstr "A")], [("Ext", Val.vstr "B")]]
    [some (SaveRes.mk (some true) true (some "idA") []),
     some (SaveRes.mk (some false) false none ["dup"])]
    "Ext"
    (RESTUpsertResult.mk
      [UpsertEntry.mk 0 (.vstr "A") (some "idA") (some (.vstr "A"))]
      []
      [FailEntry.mk 1 (.vstr "B") none (some (.vstr "B")) ["dup"]]
      [[("Ext", Val.vstr "A"), ("Id", Val.vstr "idA")]])
    rfl 0 (SaveRes.mk (some true) true (some "idA") [])
    rfl rfl (by decide) rfl

/-- C6: the whole-batch validations run on the **pruned** records (the
hypotheses below quantify over `prune transformed`, i.e. the records after
external metadata-based field pruning), and a uniqueness violation among
them raises the validation error with an empty commit trace — no commit
call is made for the step. -/
theorem c6_uniqueness_raises_before_commit (ensureMeta : Except String Unit)
    (transform : Record → Except String Record)
    (prune : List Record → List Record)
    (validateB : List Record → Except String Unit)
    (commitFn : List Record → Except String CommitOut)
    (objectName : String) (records : List Record) (cfg : LoaderCfg)
    (mk : String) (transformed : List Record) (uk : String)
    (hmk : cfg.matchKey = some mk)
    (hmeta : ensureMeta = .ok ())
    (htr : records.mapM transform = .ok transformed)
    (hval : validateB (prune transformed) = .ok ())
    (hreq : ∀ rec ∈ prune transformed, ∀ f ∈ cfg.requiredFields,
      (loaderGet rec f ≠ none ∧ loaderGet rec f ≠ some .vnull))
    (hdup : uniqViolation cfg.uniqueBy (prune transformed) = some uk) :
    insertAndMapT ensureMeta transform prune validateB commitFn objectName
        records cfg =
      ([], .error ("Uniqueness violated for " ++ objectName ++ ": fields [" ++
        joinStr ", " cfg.uniqueBy ++ "], key=" ++ uk)) := by
  have hfind : (prune transformed).findSome? (fun rec =>
      match assertRequiredFields rec cfg.requiredFields
          (objectName ++ ":" ++
            (match nullish (loaderGet rec mk) with
             | some v => jsString v
             | none => "unknown")) with
      | .error m => some m
      | .ok _ => none) = none := by
    rw [List.findSome?_eq_none_iff]
    intro rec hrec
    have hass : assertRequiredFields rec cfg.requiredFields
        (objectName ++ ":" ++
          (match nullish (loaderGet rec mk) with
           | some v => jsString v
           | none => "unknown")) = .ok () := by
      unfold assertRequiredFields
      have : cfg.requiredFields.find? (fun f =>
          match loaderGet rec f with
          | none => true
          | some .vnull => true
          | some _ => false) = none := by
        rw [List.find?_eq_none]
        intro f hf
        obtain ⟨h1, h2⟩ := hreq rec hrec f hf
        cases hget : loaderGet rec f with
        | none => exact absurd hget h1
        | some v =>
            cases v with
            | vnull => exact absurd hget h2
            | vbool b => simp
            | vint n => simp
            | vstr s => simp
            | vobj o => simp
      rw [this]
    rw [hass]
  simp only [insertAndMapT, hmk, hmeta, htr, hval, hfind, hdup]

/-- Witness for the C6 theorem: two records sharing the `Ext` unique key
raise the uniqueness error with an empty commit trace. -/
theorem c6_uniqueness_witness :
    insertAndMapT (.ok ()) (fun r => .ok r) (fun rs => rs) (fun _ => .ok ())
        (fun _ => Except.ok (CommitOut.mk [] [])) "Account"
        [[("Ext", Val.vstr "A")], [("Ext", Val.vstr "A")]]
        (LoaderCfg.mk (some "Ext") [] ["Ext"] "upsert" (some "Ext") none) =
      ([], .error ("Uniqueness violated for Account: fields [Ext], key=\"A\"")) := by
  refine c6_uniqueness_raises_before_commit (.ok ()) (fun r => .ok r)
    (fun rs => rs) (fun _ => .ok ()) (fun _ => Except.ok (CommitOut.mk [] []))
    "Account" [[("Ext", Val.vstr "A")], [("Ext", Val.vstr "A")]]
    (LoaderCfg.mk (some "Ext") [] ["Ext"] "upsert" (some "Ext") none)
    "Ext" [[("Ext", Val.vstr "A")], [("Ext", Val.vstr "A")]] "\"A\""
    rfl rfl rfl rfl ?_ rfl
  intro rec hrec f hf
  simp at hf

/-! ### Kahn loop invariant proofs -/

theorem processNeighbors_fst (L : List Nat) :
    ∀ (indeg : Nat → Int) (q : List Nat), L.Nodup → ∀ x,
      (processNeighbors L indeg q).1 x =
        if x ∈ L then indeg x - 1 else indeg x := by
  induction L with
  | nil => intro indeg q _ x; simp [processNeighbors]
  | cons v L ih =>
    intro indeg q hnd x
    have hv : v ∉ L := (List.nodup_cons.mp hnd).1
    have hstep : processNeighbors (v :: L) indeg q =
        processNeighbors L (Function.update indeg v (indeg v - 1))
          (if Function.update indeg v (indeg v - 1) v = 0 then q ++ [v] else q) := by
      rfl
    rw [hstep, ih _ _ (List.nodup_cons.mp hnd).2 x]
    by_cases hxL : x ∈ L
    · have hxv : x ≠ v := fun h => hv (h ▸ hxL)
      simp [hxL, hxv, List.mem_cons, Function.update_apply]
    · by_cases hxv : x = v
      · subst hxv
        simp [hxL, Function.update_apply]
      · simp [hxL, hxv, Function.update_apply]

theorem processNeighbors_snd (L : List Nat) :
    ∀ (indeg : Nat → Int) (q : List Nat), L.Nodup →
      (processNeighbors L indeg q).2 =
        q ++ L.filter (fun v => indeg v == 1) := by
  induction L with
  | nil => intro indeg q _; simp [processNeighbors]
  | cons v L ih =>
    intro indeg q hnd
    have hv : v ∉ L := (List.nodup_cons.mp hnd).1
    have hstep : processNeighbors (v :: L) indeg q =
        processNeighbors L (Function.update indeg v (indeg v - 1))
          (if Function.update indeg v (indeg v - 1) v = 0 then q ++ [v] else q) := by
      rfl
    rw [hstep, ih _ _ (List.nodup_cons.mp hnd).2]
    have hupd : Function.update indeg v (indeg v - 1) v = indeg v - 1 := by simp
    have hfL : L.filter (fun w => Function.update indeg v (indeg v - 1) w == 1) =
        L.filter (fun w => indeg w == 1) := by
      apply List.filter_congr
      intro w hw
      have hwv : w ≠ v := fun h => hv (h ▸ hw)
      simp [Function.update_apply, hwv]
    rw [hfL, hupd]
    by_cases hz : indeg v - 1 = 0
    · have h1 : (indeg v == 1) = true := by
        have : indeg v = 1 := by omega
        simp [this]
      simp [hz, h1, List.filter_cons]
    · have h1 : (indeg v == 1) = false := by
        have : indeg v ≠ 1 := by omega
        simpa using this
      simp [hz, h1, List.filter_cons]

theorem indexOf_lt_of_mem_take {l : List Nat} {a m : Nat} (h : a ∈ l.take m) :
    l.indexOf a < m := by
  induction l generalizing m with
  | nil => simp at h
  | cons b t ih =>
    cases m with
    | zero => simp at h
    | succ m =>
      simp only [List.take_succ_cons, List.mem_cons] at h
      by_cases hab : a = b
      · subst hab
        simp [List.indexOf_cons]
      · rcases h with h | h
        · exact absurd h hab
        · have hlt := ih h
          have hb : (b == a) = false := by simp [Ne.symm hab]
          simp only [List.indexOf_cons, hb, cond_false]
          omega

theorem mem_take_of_indexOf_lt {l : List Nat} {a m : Nat} (ha : a ∈ l)
    (h : l.indexOf a < m) : a ∈ l.take m := by
  induction l generalizing m with
  | nil => simp at ha
  | cons b t ih =>
    cases m with
    | zero => simp at h
    | succ m =>
      simp only [List.take_succ_cons, List.mem_cons]
      by_cases hab : a = b
      · exact Or.inl hab
      · rcases List.mem_cons.mp ha with h1 | h1
        · exact absurd h1 hab
        · refine Or.inr (ih h1 ?_)
          have hb : (b == a) = false := by simp [Ne.symm hab]
          simp only [List.indexOf_cons, hb, cond_false] at h
          omega

theorem indexOf_append_self {O : List Nat} {u : Nat} (h : u ∉ O) :
    (O ++ [u]).indexOf u = O.length := by
  induction O with
  | nil => simp [List.indexOf_cons]
  | cons b t ih =>
    simp only [List.mem_cons] at h
    push_neg at h
    have hb : (b == u) = false := by simp [Ne.symm h.1]
    simp only [List.cons_append, List.indexOf_cons, hb, cond_false, ih h.2,
      List.length_cons]

theorem filter_out_snoc (n : Nat) (e : Nat → Bool) (O : List Nat) (u : Nat)
    (hu : u < n) (huO : u ∉ O) :
    ((List.range n).filter (fun j => e j && !((O ++ [u]).contains j))).length =
      ((List.range n).filter (fun j => e j && !(O.contains j))).length -
        (if e u then 1 else 0) ∧
    (e u = true →
      1 ≤ ((List.range n).filter (fun j => e j && !(O.contains j))).length) := by
  have hsplit : ∀ j : Nat, (e j && !((O ++ [u]).contains j)) =
      ((e j && !(O.contains j)) && !(j == u)) := by
    intro j
    by_cases hj : j = u
    · subst hj
      have h1 : (O ++ [j]).contains j = true := by simp [List.elem_eq_mem]
      have h2 : O.contains j = false := by simp [List.elem_eq_mem, huO]
      simp [h1, h2]
    · have h1 : (O ++ [u]).contains j = O.contains j := by
        simp [List.elem_eq_mem, hj]
      simp [h1, hj]
  have hA : ((List.range n).filter (fun j => e j && !((O ++ [u]).contains j))) =
      ((List.range n).filter (fun j => e j && !(O.contains j))).filter
        (fun j => !(j == u)) := by
    rw [List.filter_filter]
    apply List.filter_congr
    intro j _
    rw [hsplit j]
    simp [Bool.and_comm]
  by_cases he : e u = true
  · have huA : u ∈ (List.range n).filter (fun j => e j && !(O.contains j)) := by
      simp [List.mem_filter, List.mem_range, hu, he, List.elem_eq_mem, huO]
    have hnd : ((List.range n).filter
        (fun j => e j && !(O.contains j))).Nodup :=
      (List.nodup_range n).filter _
    have herase : ((List.range n).filter (fun j => e j && !(O.contains j))).filter
        (fun j => !(j == u)) =
        ((List.range n).filter (fun j => e j && !(O.contains j))).erase u := by
      rw [hnd.erase_eq_filter]
      apply List.filter_congr
      intro j _
      simp only [bne]
    have hlen := List.length_erase_of_mem huA
    have hpos : 1 ≤ ((List.range n).filter
        (fun j => e j && !(O.contains j))).length :=
      List.length_pos.mpr (List.ne_nil_of_mem huA)
    constructor
    · rw [hA, herase, hlen, he]
      simp
    · intro _; exact hpos
  · have he' : e u = false := by simpa using he
    constructor
    · rw [hA]
      have : ((List.range n).filter (fun j => e j && !(O.contains j))).filter
          (fun j => !(j == u)) =
          ((List.range n).filter (fun j => e j && !(O.contains j))) := by
        apply List.filter_eq_self.mpr
        intro j hj
        rcases List.mem_filter.mp hj with ⟨_, hpj⟩
        by_cases hju : j = u
        · subst hju; rw [he'] at hpj; simp at hpj
        · simp [hju]
      rw [this, he']
      simp
    · intro hcontra; rw [he'] at hcontra; cases hcontra

theorem natCast_length_eq_zero {α : Type} (l : List α) :
    ((l.length : Int) = 0) ↔ l = [] := by
  constructor
  · intro h
    have : l.length = 0 := by exact_mod_cast h
    exact List.length_eq_zero.mp this
  · intro h; subst h; rfl

theorem kahnInv_init (steps : List Step) :
    KahnInv steps (initIndeg steps)
      ((List.range steps.length).filter (fun i => initIndeg steps i == 0))
      [] := by
  refine ⟨?_, ?_, ?_, ?_, ?_, ?_, ?_, ?_, ?_⟩
  · exact List.nodup_nil
  · intro v hv; simp at hv
  · exact (List.nodup_range _).filter _
  · intro v hv
    exact List.mem_range.mp (List.mem_filter.mp hv).1
  · intro v _ hv; simp at hv
  · intro v hvlt
    constructor
    · intro hvq
      refine ⟨by simp, ?_⟩
      intro j hj hedge
      exfalso
      rcases List.mem_filter.mp hvq with ⟨_, hz⟩
      have hz2 : initIndeg steps v = 0 := by simpa using hz
      have : ((List.range steps.length).filter
          (fun j => edgeB steps j v)) = [] :=
        (natCast_length_eq_zero _).mp hz2
      have hjmem : j ∈ (List.range steps.length).filter
          (fun j => edgeB steps j v) := by
        simp [List.mem_filter, List.mem_range, hj, hedge]
      rw [this] at hjmem
      simp at hjmem
    · rintro ⟨-, hall⟩
      have hnil : ((List.range steps.length).filter
          (fun j => edgeB steps j v)) = [] := by
        apply List.filter_eq_nil.mpr
        intro j hj
        have hjlt := List.mem_range.mp hj
        intro hedge
        have := hall j hjlt (by simpa using hedge)
        simp at this
      refine List.mem_filter.mpr ⟨List.mem_range.mpr hvlt, ?_⟩
      simp [initIndeg, hnil]
  · intro v _
    have hfe : (List.range steps.length).filter
        (fun j => edgeB steps j v && !(List.contains [] j)) =
        (List.range steps.length).filter (fun j => edgeB steps j v) := by
      apply List.filter_congr
      intro j _
      simp
    unfold initIndeg
    rw [hfe]
  · intro v hv; simp at hv
  · intro p hp; simp at hp

theorem edgeB_ne {steps : List Step} {j i : Nat} (h : edgeB steps j i = true) :
    j ≠ i := by
  simp only [edgeB, Bool.and_eq_true, decide_eq_true_eq] at h
  exact h.1

theorem getD_append_length (O : List Nat) (u : Nat) :
    (O ++ [u]).getD O.length 0 = u := by
  induction O with
  | nil => rfl
  | cons b t ih => simpa using ih

theorem cnt_zero_iff (steps : List Step) (O : List Nat) (v : Nat) :
    ((List.range steps.length).filter
        (fun j => edgeB steps j v && !(O.contains j))).length = 0 ↔
      ∀ j, j < steps.length → edgeB steps j v = true → j ∈ O := by
  rw [List.length_eq_zero]
  constructor
  · intro hnil j hj he
    by_contra hjo
    have hjm : j ∈ (List.range steps.length).filter
        (fun j => edgeB steps j v && !(O.contains j)) := by
      simp [List.mem_filter, List.mem_range, hj, he, List.elem_eq_mem, hjo]
    rw [hnil] at hjm
    simp at hjm
  · intro hall
    apply List.filter_eq_nil.mpr
    intro j hj
    have hjlt := List.mem_range.mp hj
    intro hpred
    rw [Bool.and_eq_true] at hpred
    rcases hpred with ⟨he, hnc⟩
    have hjO := hall j hjlt he
    simp [List.elem_eq_mem, hjO] at hnc

theorem kahnInv_step (steps : List Step) (indeg : Nat → Int) (q order : List Nat)
    (hInv : KahnInv steps indeg q order) (u : Nat) (rest : List Nat)
    (hsort : List.insertionSort (fun a b => a ≤ b) q = u :: rest) :
    KahnInv steps (processNeighbors (adjOf steps u) indeg rest).1
      (processNeighbors (adjOf steps u) indeg rest).2 (order ++ [u]) := by
  have hperm0 : List.Perm (u :: rest) q := by
    rw [← hsort]; exact List.perm_insertionSort _ q
  have hnd : (u :: rest).Nodup := hperm0.nodup_iff.mpr hInv.qNodup
  have hundr : u ∉ rest := (List.nodup_cons.mp hnd).1
  have hndr : rest.Nodup := (List.nodup_cons.mp hnd).2
  have huq : u ∈ q := hperm0.mem_iff.mp (List.mem_cons_self u rest)
  have hrestq : ∀ x ∈ rest, x ∈ q := fun x hx =>
    hperm0.mem_iff.mp (List.mem_cons_of_mem u hx)
  have hsorted : List.Sorted (fun a b => a ≤ b) (u :: rest) := by
    rw [← hsort]; exact List.sorted_insertionSort _ q
  have hmin_rest : ∀ x ∈ rest, u ≤ x := (List.sorted_cons.mp hsorted).1
  have hu_lt : u < steps.length := hInv.qLt u huq
  have hu_not : u ∉ order := hInv.qNotInOrder u huq
  have hadj_nodup : (adjOf steps u).Nodup := (List.nodup_range _).filter _
  have hadj_mem : ∀ x, x ∈ adjOf steps u ↔
      x < steps.length ∧ edgeB steps u x = true := by
    intro x; simp [adjOf, List.mem_filter, List.mem_range]
  have hfst : ∀ x, (processNeighbors (adjOf steps u) indeg rest).1 x =
      if x ∈ adjOf steps u then indeg x - 1 else indeg x :=
    processNeighbors_fst _ indeg rest hadj_nodup
  have hsnd : (processNeighbors (adjOf steps u) indeg rest).2 =
      rest ++ (adjOf steps u).filter (fun v => indeg v == 1) :=
    processNeighbors_snd _ indeg rest hadj_nodup
  have hnewly_mem : ∀ v, v ∈ (adjOf steps u).filter (fun v => indeg v == 1) ↔
      (v < steps.length ∧ edgeB steps u v = true) ∧ indeg v = 1 := by
    intro v
    rw [List.mem_filter, hadj_mem v]
    simp
  have hcnt : ∀ v, v < steps.length →
      (((List.range steps.length).filter
          (fun j => edgeB steps j v &&
            !((order ++ [u]).contains j))).length : Int) =
        indeg v - (if edgeB steps u v then 1 else 0) := by
    intro v hv
    obtain ⟨h1, h2⟩ := filter_out_snoc steps.length (fun j => edgeB steps j v)
      order u hu_lt hu_not
    rw [hInv.indegSpec v hv, h1]
    by_cases he : edgeB steps u v = true
    · have hge := h2 he
      rw [if_pos he, if_pos he]
      omega
    · have he' : edgeB steps u v = false := by simpa using he
      simp [he']
  have hzero : ∀ (O2 : List Nat) (v : Nat),
      ((((List.range steps.length).filter
          (fun j => edgeB steps j v && !(O2.contains j))).length : Int) = 0 ↔
        ∀ j, j < steps.length → edgeB steps j v = true → j ∈ O2) := by
    intro O2 v
    rw [Nat.cast_eq_zero]
    exact cnt_zero_iff steps O2 v
  have hindeg_zero : ∀ v, v < steps.length → (indeg v = 0 ↔
      ∀ j, j < steps.length → edgeB steps j v = true → j ∈ order) := by
    intro v hv
    rw [hInv.indegSpec v hv]
    exact hzero order v
  have hq'not : ∀ v ∈ rest ++ (adjOf steps u).filter (fun v => indeg v == 1),
      v ∉ order ++ [u] := by
    intro v hv hvO'
    rcases List.mem_append.mp hv with hvr | hvn
    · have hvq := hrestq v hvr
      have hvo := hInv.qNotInOrder v hvq
      have hvu : v ≠ u := fun h => hundr (h ▸ hvr)
      rcases List.mem_append.mp hvO' with h | h
      · exact hvo h
      · exact hvu (List.mem_singleton.mp h)
    · rcases (hnewly_mem v).mp hvn with ⟨⟨hvlt, hedge⟩, hind⟩
      have hvu : v ≠ u := fun h => (edgeB_ne hedge) h.symm
      rcases List.mem_append.mp hvO' with h | h
      · rcases hInv.orderRespects v h u hu_lt hedge with ⟨huo, -⟩
        exact hu_not huo
      · exact hvu (List.mem_singleton.mp h)
  rw [hsnd]
  refine ⟨?_, ?_, ?_, ?_, ?_, ?_, ?_, ?_, ?_⟩
  · exact List.Nodup.append hInv.orderNodup (List.nodup_singleton u)
      (fun a ha hau => hu_not ((List.mem_singleton.mp hau) ▸ ha))
  · intro v hv
    rcases List.mem_append.mp hv with h | h
    · exact hInv.orderLt v h
    · exact (List.mem_singleton.mp h) ▸ hu_lt
  · refine List.Nodup.append hndr (hadj_nodup.filter _) ?_
    intro a ha han
    rcases (hnewly_mem a).mp han with ⟨⟨halt, hedge⟩, hind⟩
    have haq := hrestq a ha
    rcases (hInv.qMem a halt).mp haq with ⟨-, hall⟩
    have : indeg a = 0 := (hindeg_zero a halt).mpr hall
    omega
  · intro v hv
    rcases List.mem_append.mp hv with h | h
    · exact hInv.qLt v (hrestq v h)
    · exact ((hnewly_mem v).mp h).1.1
  · exact hq'not
  · intro v hv
    constructor
    · intro hvq'
      refine ⟨hq'not v hvq', ?_⟩
      rcases List.mem_append.mp hvq' with hvr | hvn
      · rcases (hInv.qMem v hv).mp (hrestq v hvr) with ⟨-, hall⟩
        intro j hj he
        exact List.mem_append_left _ (hall j hj he)
      · rcases (hnewly_mem v).mp hvn with ⟨⟨-, hedge⟩, hind⟩
        have h0 : (((List.range steps.length).filter
            (fun j => edgeB steps j v &&
              !((order ++ [u]).contains j))).length : Int) = 0 := by
          rw [hcnt v hv, if_pos hedge, hind]
          norm_num
        rw [hzero (order ++ [u]) v] at h0
        exact h0
    · rintro ⟨hvnO', hall'⟩
      have hvno : v ∉ order := fun h => hvnO' (List.mem_append_left _ h)
      have hvnu : v ≠ u := fun h => hvnO' (List.mem_append_right _ (by simp [h]))
      by_cases hedge : edgeB steps u v = true
      · have h0 : (((List.range steps.length).filter
            (fun j => edgeB steps j v &&
              !((order ++ [u]).contains j))).length : Int) = 0 :=
          (hzero (order ++ [u]) v).mpr hall'
        rw [hcnt v hv, if_pos hedge] at h0
        have hind : indeg v = 1 := by omega
        exact List.mem_append_right _ ((hnewly_mem v).mpr ⟨⟨hv, hedge⟩, hind⟩)
      · have hall : ∀ j, j < steps.length → edgeB steps j v = true →
            j ∈ order := by
          intro j hj he
          rcases List.mem_append.mp (hall' j hj he) with h | h
          · exact h
          · exact absurd ((List.mem_singleton.mp h) ▸ he) hedge
        have hvq : v ∈ q := (hInv.qMem v hv).mpr ⟨hvno, hall⟩
        rcases List.mem_cons.mp (hperm0.mem_iff.mpr hvq) with h | h
        · exact absurd h hvnu
        · exact List.mem_append_left _ h
  · intro v hv
    rw [hfst v]
    by_cases hva : v ∈ adjOf steps u
    · rcases (hadj_mem v).mp hva with ⟨-, hedge⟩
      rw [if_pos hva, hcnt v hv, if_pos hedge]
    · rw [if_neg hva]
      have hedge : edgeB steps u v = false := by
        by_contra hc
        have hc2 : edgeB steps u v = true := by simpa using hc
        exact hva ((hadj_mem v).mpr ⟨hv, hc2⟩)
      rw [hcnt v hv, hedge]
      simp
  · intro v hvO' j hj hedge
    rcases List.mem_append.mp hvO' with hvo | hvu
    · rcases hInv.orderRespects v hvo j hj hedge with ⟨hjo, hidx⟩
      refine ⟨List.mem_append_left _ hjo, ?_⟩
      rw [List.indexOf_append_of_mem hjo, List.indexOf_append_of_mem hvo]
      exact hidx
    · have hveq : v = u := List.mem_singleton.mp hvu
      subst hveq
      rcases (hInv.qMem v hu_lt).mp huq with ⟨-, hall⟩
      have hjo : j ∈ order := hall j hj hedge
      refine ⟨List.mem_append_left _ hjo, ?_⟩
      rw [List.indexOf_append_of_mem hjo, indexOf_append_self hu_not]
      exact List.indexOf_lt_length.mpr hjo
  · intro p hp i hi hlt hnotin
    rw [List.length_append, List.length_singleton] at hp
    by_cases hpo : p < order.length
    · rw [List.getD_append _ _ _ _ hpo] at hlt
      rw [List.take_append_of_le_length (by omega)] at hnotin
      rcases hInv.tieBreak p hpo i hi hlt hnotin with ⟨k, hk, hke, hkn⟩
      refine ⟨k, hk, hke, ?_⟩
      rw [List.take_append_of_le_length (by omega)]
      exact hkn
    · have hpe : p = order.length := by omega
      subst hpe
      rw [getD_append_length] at hlt
      have htk : (order ++ [u]).take (order.length + 1) = order ++ [u] := by
        have hlen2 : (order ++ [u]).length = order.length + 1 := by
          rw [List.length_append, List.length_singleton]
        rw [← hlen2, List.take_length]
      rw [htk] at hnotin
      rw [List.take_append_of_le_length le_rfl, List.take_length]
      by_contra hcon
      push_neg at hcon
      have hall : ∀ j, j < steps.length → edgeB steps j i = true →
          j ∈ order := fun j hj he => hcon j hj he
      have hio : i ∉ order := fun h => hnotin (List.mem_append_left _ h)
      have hiq : i ∈ q := (hInv.qMem i hi).mpr ⟨hio, hall⟩
      rcases List.mem_cons.mp (hperm0.mem_iff.mpr hiq) with h | h
      · omega
      · have := hmin_rest i h
        omega

theorem kahnLoop_props (steps : List Step) :
    ∀ (fuel : Nat) (indeg : Nat → Int) (q order : List Nat),
      KahnInv steps indeg q order →
      ∃ (indeg2 : Nat → Int) (q2 : List Nat) (t : Nat),
        KahnInv steps indeg2 q2
          (kahnLoop (adjOf steps) indeg q order fuel) ∧
        (kahnLoop (adjOf steps) indeg q order fuel).length =
          order.length + t ∧
        t ≤ fuel ∧ (t < fuel → q2 = []) := by
  intro fuel
  induction fuel with
  | zero =>
    intro indeg q order hInv
    refine ⟨indeg, q, 0, ?_, ?_, le_rfl, fun h => absurd h (by omega)⟩
    · exact hInv
    · simp [kahnLoop]
  | succ fuel ih =>
    intro indeg q order hInv
    cases hsort : List.insertionSort (fun a b => a ≤ b) q with
    | nil =>
      have hq : q = [] := by
        have hp := List.perm_insertionSort (fun a b => a ≤ b) q
        rw [hsort] at hp
        exact hp.symm.eq_nil
      have hloop : kahnLoop (adjOf steps) indeg q order (fuel + 1) = order := by
        simp [kahnLoop, hsort]
      rw [hloop]
      exact ⟨indeg, q, 0, hInv, by simp, by omega, fun _ => hq⟩
    | cons u rest =>
      have hstep := kahnInv_step steps indeg q order hInv u rest hsort
      have hloop : kahnLoop (adjOf steps) indeg q order (fuel + 1) =
          kahnLoop (adjOf steps)
            (processNeighbors (adjOf steps u) indeg rest).1
            (processNeighbors (adjOf steps u) indeg rest).2
            (order ++ [u]) fuel := by
        simp [kahnLoop, hsort]
      rw [hloop]
      rcases ih (processNeighbors (adjOf steps u) indeg rest).1
        (processNeighbors (adjOf steps u) indeg rest).2 (order ++ [u]) hstep
        with ⟨ind2, q2, t, hInv2, hlen, hle, hempty⟩
      refine ⟨ind2, q2, t + 1, hInv2, ?_, by omega, fun h => hempty (by omega)⟩
      rw [hlen, List.length_append, List.length_singleton]
      omega

theorem map_getD_range {α : Type} (l : List α) (d : α) :
    (List.range l.length).map (fun i => l.getD i d) = l := by
  apply List.ext_getElem
  · simp
  · intro i h1 h2
    simp only [List.getElem_map, List.getElem_range]
    exact List.getD_eq_getElem l d h2

theorem topoOrder_spec (steps : List Step) :
    ∃ (indeg2 : Nat → Int) (q2 : List Nat),
      KahnInv steps indeg2 q2 (topoOrder steps) ∧
      ((topoOrder steps).length < steps.length → q2 = []) := by
  have e : topoOrder steps = kahnLoop (adjOf steps) (initIndeg steps)
      ((List.range steps.length).filter (fun i => initIndeg steps i == 0)) []
      steps.length := rfl
  rcases kahnLoop_props steps steps.length (initIndeg steps)
      ((List.range steps.length).filter (fun i => initIndeg steps i == 0)) []
      (kahnInv_init steps) with ⟨ind2, q2, t, hInv, hlen, hle, hempty⟩
  have hlen2 : (kahnLoop (adjOf steps) (initIndeg steps)
      ((List.range steps.length).filter (fun i => initIndeg steps i == 0)) []
      steps.length).length = t := by simpa using hlen
  rw [e]
  refine ⟨ind2, q2, hInv, ?_⟩
  intro hlt
  apply hempty
  rw [hlen2] at hlt
  omega

theorem acyclic_complete (steps : List Step) (hacyc : Acyclic steps) :
    (topoOrder steps).length = steps.length := by
  rcases topoOrder_spec steps with ⟨ind2, q2, hInv, hempty⟩
  by_contra hne
  have hsub : (topoOrder steps) ⊆ List.range steps.length := fun v hv =>
    List.mem_range.mpr (hInv.orderLt v hv)
  have hle := (List.subperm_of_subset hInv.orderNodup hsub).length_le
  rw [List.length_range] at hle
  have hlt : (topoOrder steps).length < steps.length := by omega
  have hq2 : q2 = [] := hempty hlt
  have hex : ∃ v, v < steps.length ∧ v ∉ topoOrder steps := by
    by_contra hcon
    push_neg at hcon
    have hsub2 : List.range steps.length ⊆ topoOrder steps := fun v hv =>
      hcon v (List.mem_range.mp hv)
    have hle2 := (List.subperm_of_subset (List.nodup_range _) hsub2).length_le
    rw [List.length_range] at hle2
    omega
  haveI : IsTrans (Fin steps.length)
      (Relation.TransGen (kahnRel steps)) := ⟨fun _ _ _ => Relation.TransGen.trans⟩
  haveI : IsIrrefl (Fin steps.length)
      (Relation.TransGen (kahnRel steps)) := ⟨hacyc⟩
  have hwf0 : WellFounded (Relation.TransGen (kahnRel steps)) :=
    Finite.wellFounded_of_trans_of_irrefl _
  have hwf : WellFounded (kahnRel steps) :=
    Subrelation.wf (fun {a b} h => Relation.TransGen.single h) hwf0
  rcases hex with ⟨v0, hv0lt, hv0not⟩
  rcases hwf.has_min {x : Fin steps.length | (x : Nat) ∉ topoOrder steps}
      ⟨⟨v0, hv0lt⟩, hv0not⟩ with ⟨m, hmS, hmin⟩
  have hall : ∀ j, j < steps.length → edgeB steps j (m : Nat) = true →
      j ∈ topoOrder steps := by
    intro j hj he
    by_contra hjo
    exact hmin ⟨j, hj⟩ hjo he
  have hmem : (m : Nat) ∈ q2 := (hInv.qMem (m : Nat) m.isLt).mpr ⟨hmS, hall⟩
  rw [hq2] at hmem
  simp at hmem

theorem topoOrder_perm_range (steps : List Step)
    (hlen : (topoOrder steps).length = steps.length) :
    List.Perm (topoOrder steps) (List.range steps.length) := by
  rcases topoOrder_spec steps with ⟨ind2, q2, hInv, -⟩
  have hsub : (topoOrder steps) ⊆ List.range steps.length := fun v hv =>
    List.mem_range.mpr (hInv.orderLt v hv)
  exact (List.subperm_of_subset hInv.orderNodup hsub).perm_of_length_le
    (by rw [List.length_range, hlen])

theorem topoOrder_respects (steps : List Step)
    (hlen : (topoOrder steps).length = steps.length) :
    ∀ a b, a < steps.length → b < steps.length → edgeB steps a b = true →
      (topoOrder steps).indexOf a < (topoOrder steps).indexOf b := by
  rcases topoOrder_spec steps with ⟨ind2, q2, hInv, -⟩
  have hmemall : ∀ v, v < steps.length → v ∈ topoOrder steps := by
    intro v hv
    exact (topoOrder_perm_range steps hlen).mem_iff.mpr (List.mem_range.mpr hv)
  intro a b ha hb he
  exact (hInv.orderRespects b (hmemall b hb) a ha he).2

theorem complete_acyclic (steps : List Step)
    (hlen : (topoOrder steps).length = steps.length) : Acyclic steps := by
  intro i htg
  have hmono : ∀ a b : Fin steps.length, Relation.TransGen (kahnRel steps) a b →
      (topoOrder steps).indexOf (a : Nat) < (topoOrder steps).indexOf (b : Nat) := by
    intro a b htg2
    induction htg2 with
    | single h =>
      exact topoOrder_respects steps hlen _ _ (Fin.isLt _) (Fin.isLt _) h
    | tail hab hbc ih =>
      exact lt_trans ih
        (topoOrder_respects steps hlen _ _ (Fin.isLt _) (Fin.isLt _) hbc)
  exact lt_irrefl _ (hmono i i htg)

/-- C3: for every step list whose dependency graph is acyclic,
`topoSortSteps` returns a permutation of the steps, obtained by mapping the
produced index order over the input; that index order is a permutation of
all positions in which every producer index precedes each of its consumer
indices; and ties are broken by declaration order: whenever a
smaller-numbered step is still unscheduled when a larger-numbered step is
popped, some producer of the smaller step had not yet been scheduled (the
smaller step was not ready). -/
theorem c3_topo_sort_correct (steps : List Step) (hacyc : Acyclic steps) :
    List.Perm (topoSortSteps steps) steps ∧
    topoSortSteps steps =
      (topoOrder steps).map (fun idx => steps.getD idx defaultStep) ∧
    List.Perm (topoOrder steps) (List.range steps.length) ∧
    (∀ a b, a < steps.length → b < steps.length → edgeB steps a b = true →
      (topoOrder steps).indexOf a < (topoOrder steps).indexOf b) ∧
    (∀ p, p < (topoOrder steps).length → ∀ i, i < steps.length →
      i < (topoOrder steps).getD p 0 → i ∉ (topoOrder steps).take (p + 1) →
      ∃ k, k < steps.length ∧ edgeB steps k i = true ∧
        k ∉ (topoOrder steps).take p) := by
  have hlen := acyclic_complete steps hacyc
  have hmap : topoSortSteps steps =
      (topoOrder steps).map (fun idx => steps.getD idx defaultStep) := by
    have e : topoSortSteps steps =
        if (topoOrder steps).length ≠ steps.length then steps
        else (topoOrder steps).map (fun idx => steps.getD idx defaultStep) :=
      rfl
    rw [e, if_neg (not_not_intro hlen)]
  have hperm := topoOrder_perm_range steps hlen
  refine ⟨?_, hmap, hperm, topoOrder_respects steps hlen, ?_⟩
  · rw [hmap]
    have hm := hperm.map (fun idx => steps.getD idx defaultStep)
    rw [map_getD_range steps defaultStep] at hm
    exact hm
  · rcases topoOrder_spec steps with ⟨ind2, q2, hInv, -⟩
    exact hInv.tieBreak

/-- Witness for C3 at a concrete acyclic two-step pipeline with no
dependencies. -/
theorem c3_topo_sort_correct_witness :
    Acyclic [Step.mk "A" [], Step.mk "B" []] ∧
    List.Perm (topoSortSteps [Step.mk "A" [], Step.mk "B" []])
      [Step.mk "A" [], Step.mk "B" []] := by
  have hdep : ∀ i,
      (([Step.mk "A" [], Step.mk "B" []].getD i defaultStep)).dependsOn =
        [] := by
    intro i
    match i with
    | 0 => rfl
    | 1 => rfl
    | n + 2 => rfl
  have hne : ∀ j i : Nat,
      edgeB [Step.mk "A" [], Step.mk "B" []] j i = false := by
    intro j i
    simp only [edgeB]
    rw [hdep i]
    simp
  have hacyc : Acyclic [Step.mk "A" [], Step.mk "B" []] := by
    intro i htg
    cases htg with
    | single h =>
      have h2 : edgeB [Step.mk "A" [], Step.mk "B" []] _ _ = true := h
      rw [hne] at h2
      cases h2
    | tail _ h =>
      have h2 : edgeB [Step.mk "A" [], Step.mk "B" []] _ _ = true := h
      rw [hne] at h2
      cases h2
  exact ⟨hacyc, (c3_topo_sort_correct _ hacyc).1⟩

/-- C4 as stated is false: on the concrete two-step cycle
X dependsOn Y, Y dependsOn X, the scheduler silently returns the steps in
declaration order instead of rejecting the pipeline. -/
theorem c4_counterexample : ¬ C4Prop := by
  intro h
  have h01 : kahnRel [Step.mk "X" ["Y"], Step.mk "Y" ["X"]]
      ⟨0, by decide⟩ ⟨1, by decide⟩ := by
    show edgeB [Step.mk "X" ["Y"], Step.mk "Y" ["X"]] 0 1 = true
    rfl
  have h10 : kahnRel [Step.mk "X" ["Y"], Step.mk "Y" ["X"]]
      ⟨1, by decide⟩ ⟨0, by decide⟩ := by
    show edgeB [Step.mk "X" ["Y"], Step.mk "Y" ["X"]] 1 0 = true
    rfl
  exact h [Step.mk "X" ["Y"], Step.mk "Y" ["X"]]
    ⟨⟨0, by decide⟩, Relation.TransGen.tail (Relation.TransGen.single h01) h10⟩
    rfl

/-- C4 amended: on every cyclic dependency graph the scheduler silently
falls back to declaration order — `topoSortSteps` returns the input list
unchanged (the embedded code only warns; it raises no error). -/
theorem c4_cycle_silently_returns_declaration_order (steps : List Step)
    (hcyc : HasCycle steps) : topoSortSteps steps = steps := by
  have hne : (topoOrder steps).length ≠ steps.length := by
    intro heq
    rcases hcyc with ⟨i, htg⟩
    exact complete_acyclic steps heq i htg
  have e : topoSortSteps steps =
      if (topoOrder steps).length ≠ steps.length then steps
      else (topoOrder steps).map (fun idx => steps.getD idx defaultStep) :=
    rfl
  rw [e, if_pos hne]

/-- Witness for the amended C4 at the concrete two-step cycle. -/
theorem c4_cycle_witness :
    HasCycle [Step.mk "X" ["Y"], Step.mk "Y" ["X"]] ∧
    topoSortSteps [Step.mk "X" ["Y"], Step.mk "Y" ["X"]] =
      [Step.mk "X" ["Y"], Step.mk "Y" ["X"]] := by
  have h01 : kahnRel [Step.mk "X" ["Y"], Step.mk "Y" ["X"]]
      ⟨0, by decide⟩ ⟨1, by decide⟩ := by
    show edgeB [Step.mk "X" ["Y"], Step.mk "Y" ["X"]] 0 1 = true
    rfl
  have h10 : kahnRel [Step.mk "X" ["Y"], Step.mk "Y" ["X"]]
      ⟨1, by decide⟩ ⟨0, by decide⟩ := by
    show edgeB [Step.mk "X" ["Y"], Step.mk "Y" ["X"]] 1 0 = true
    rfl
  have hcyc : HasCycle [Step.mk "X" ["Y"], Step.mk "Y" ["X"]] :=
    ⟨⟨0, by decide⟩, Relation.TransGen.tail (Relation.TransGen.single h01) h10⟩
  exact ⟨hcyc, c4_cycle_silently_returns_declaration_order _ hcyc⟩
